import Mathlib

/-!
Verification of the capability-selection core of a Go agent SDK:
a multi-index in-memory store, a BM25 relevance index, a skill
(capability-bundle) registry with transitive dependency resolution, and a
context builder that fuses ranked search with dependency expansion.

The Go code keeps its tables in hash maps (`map[string]T`) and in a
transactional store whose iterators enumerate records in lexicographic key
order.  A Go map is semantically a finite map; we embed every map as its
canonical representation, an association list strictly sorted by key.  All
arithmetic the Go code performs on `float64` is embedded in `ℚ`; the one
transcendental operation, `math.Log`, is abstracted as a function parameter
`log : ℚ → ℚ` about which theorems assume only the properties of the real
logarithm they need.
-/

namespace AgentCore

/-! ## Canonical string-keyed association lists (embedding of Go maps) -/

/-- Lexicographic comparison of rune lists by code point (the order in
which the transactional store's radix-tree iterators enumerate keys). -/
def chainLt : List Char → List Char → Bool
  | [], [] => false
  | [], _ :: _ => true
  | _ :: _, [] => false
  | c :: cs, d :: ds =>
    if c.toNat < d.toNat then true
    else if d.toNat < c.toNat then false
    else chainLt cs ds

/-- Lexicographic order on strings, kernel-computable. -/
def strLt (a b : String) : Bool := chainLt a.data b.data

/-- Look up a key in an association list. -/
def alookup {β : Type} (l : List (String × β)) (k : String) : Option β :=
  match l with
  | [] => none
  | (k', v) :: t => if k = k' then some v else alookup t k

/-- Upsert keyed by the first component, keeping the list strictly sorted. -/
def ainsert {β : Type} (k : String) (v : β) (l : List (String × β)) :
    List (String × β) :=
  match l with
  | [] => [(k, v)]
  | (k', v') :: t =>
    if k = k' then (k, v) :: t
    else if strLt k k' then (k, v) :: (k', v') :: t
    else (k', v') :: ainsert k v t

/-- Delete a key from an association list. -/
def aerase {β : Type} (k : String) (l : List (String × β)) :
    List (String × β) :=
  match l with
  | [] => []
  | (k', v') :: t => if k = k' then t else (k', v') :: aerase k t

/-- A list of strings is strictly increasing. -/
def strSorted : List String → Bool
  | [] => true
  | [_] => true
  | a :: b :: t => strLt a b && strSorted (b :: t)

/-- The keys of an association list are strictly increasing. -/
def keysSorted {β : Type} (l : List (String × β)) : Bool :=
  strSorted (l.map Prod.fst)

/-! ## Tokenization (search.go: tokenize, termFrequencies) -/

/-- Embedding of `unicode.IsLetter(r) || unicode.IsDigit(r)` on the ASCII
range (the corpus is ASCII; the claims do not depend on non-ASCII runes). -/
def isWordRune (c : Char) : Bool := c.isAlpha || c.isDigit

/-- Worker for `tokenize`: walks the rune list keeping the current token
accumulated in reverse, flushing it at every non-word rune and at the end. -/
def tokenizeChars : List Char → List Char → List String
  | [], cur => if cur.isEmpty then [] else [String.mk cur.reverse]
  | c :: rest, cur =>
    if isWordRune c then tokenizeChars rest (c :: cur)
    else if cur.isEmpty then tokenizeChars rest []
    else String.mk cur.reverse :: tokenizeChars rest []

/-- Embedding of `tokenize`: lower-case, then split on any rune that is not
a letter or digit, discarding empty runs. -/
def tokenize (text : String) : List String :=
  tokenizeChars (text.data.map Char.toLower) []

/-- One `counts[t]++` step of `termFrequencies`. -/
def bumpCount (m : List (String × Nat)) (t : String) : List (String × Nat) :=
  match alookup m t with
  | some c => ainsert t (c + 1) m
  | none => ainsert t 1 m

/-- Embedding of `termFrequencies`: term → occurrence count.  The Go code
stores the counts as `float64`; they are exact small naturals, kept as `Nat`
here and cast into `ℚ` where the scoring arithmetic reads them. -/
def termFrequencies (tokens : List String) : List (String × Nat) :=
  tokens.foldl bumpCount []

/-- Term-frequency read, with Go's zero default for absent keys. -/
def tfGet (m : List (String × Nat)) (t : String) : Nat :=
  (alookup m t).getD 0

/-! ## BM25 index (search.go) -/

/-- Embedding of `bm25Doc`: a tokenized document in the BM25 index. -/
structure Bm25Doc where
  id : String
  tokens : List String
  tf : List (String × Nat)
  length : Nat
deriving DecidableEq

/-- Embedding of `BM25Index`.  `docs` and `df` are the canonical forms of
the Go maps `map[string]*bm25Doc` and `map[string]int`. -/
structure BM25Index where
  docs : List (String × Bm25Doc)
  df : List (String × Int)
  avgLen : ℚ
  k1 : ℚ
  b : ℚ
deriving DecidableEq

/-- Embedding of `NewBM25Index`: empty maps, k1 = 1.2, b = 0.75. -/
def NewBM25Index : BM25Index :=
  { docs := [], df := [], avgLen := 0, k1 := 12 / 10, b := 75 / 100 }

/-- Embedding of `idx.df[term]++`. -/
def dfIncr (m : List (String × Int)) (t : String) : List (String × Int) :=
  match alookup m t with
  | some c => ainsert t (c + 1) m
  | none => ainsert t 1 m

/-- Embedding of `idx.df[term]--; if idx.df[term] <= 0 { delete }`.  For an
absent key Go transiently writes −1 and immediately deletes it, so the net
effect is the identity. -/
def dfDecr (m : List (String × Int)) (t : String) : List (String × Int) :=
  match alookup m t with
  | some c => if c - 1 ≤ 0 then aerase t m else ainsert t (c - 1) m
  | none => m

/-- Decrement the document frequency of every term of a tf table. -/
def dfSubtract (m : List (String × Int)) (tf : List (String × Nat)) :
    List (String × Int) :=
  tf.foldl (fun acc p => dfDecr acc p.1) m

/-- Increment the document frequency of every term of a tf table. -/
def dfAdd (m : List (String × Int)) (tf : List (String × Nat)) :
    List (String × Int) :=
  tf.foldl (fun acc p => dfIncr acc p.1) m

/-- Embedding of `recomputeAvgLen`. -/
def recomputeAvgLen (docs : List (String × Bm25Doc)) : ℚ :=
  if docs.length = 0 then 0
  else ((docs.foldl (fun acc p => acc + p.2.length) 0 : Nat) : ℚ) /
    (docs.length : ℚ)

/-- Text and space-joined tags combined into one token stream. -/
def combinedText (text : String) (tags : List String) : String :=
  if tags.length > 0 then text ++ " " ++ String.intercalate " " tags
  else text

/-- The document record `Index` builds before touching the tables. -/
def mkDoc (id text : String) (tags : List String) : Bm25Doc :=
  let tokens := tokenize (combinedText text tags)
  { id := id, tokens := tokens, tf := termFrequencies tokens,
    length := tokens.length }

/-- Embedding of `BM25Index.Index`: add or update a document. -/
def BM25Index.Index (idx : BM25Index) (id text : String)
    (tags : List String) : BM25Index :=
  let doc := mkDoc id text tags
  let df₁ :=
    match alookup idx.docs id with
    | some old => dfSubtract idx.df old.tf
    | none => idx.df
  let docs' := ainsert id doc idx.docs
  { idx with
    docs := docs'
    df := dfAdd df₁ doc.tf
    avgLen := recomputeAvgLen docs' }

/-- Embedding of `BM25Index.Remove`. -/
def BM25Index.Remove (idx : BM25Index) (id : String) : BM25Index :=
  match alookup idx.docs id with
  | none => idx
  | some doc =>
    let docs' := aerase id idx.docs
    { idx with
      docs := docs'
      df := dfSubtract idx.df doc.tf
      avgLen := recomputeAvgLen docs' }

/-- Embedding of `SearchResult`. -/
structure SearchResult where
  ID : String
  Score : ℚ
deriving DecidableEq

/-- BM25 score of one document against the query tokens: the inner loop of
`BM25Index.Search`, with `math.Log` abstracted as `log`. -/
def scoreDoc (log : ℚ → ℚ) (idx : BM25Index) (queryTokens : List String)
    (doc : Bm25Doc) : ℚ :=
  queryTokens.foldl (fun score term =>
    let tf : ℚ := (tfGet doc.tf term : ℚ)
    if tf = 0 then score
    else
      let dfVal : ℚ := ((alookup idx.df term).getD 0 : ℚ)
      let n : ℚ := (idx.docs.length : ℚ)
      let idf := log ((n - dfVal + 1 / 2) / (dfVal + 1 / 2) + 1)
      let num := tf * (idx.k1 + 1)
      let den := tf + idx.k1 *
        (1 - idx.b + idx.b * (doc.length : ℚ) / idx.avgLen)
      score + idf * (num / den)) 0

/-- One sift step of the descending insertion sort in `Search`: the new
element moves up exactly past the elements it strictly beats, so it lands
after every element scoring at least as much. -/
def insertScoredDesc (x : SearchResult) : List SearchResult → List SearchResult
  | [] => [x]
  | y :: ys => if x.Score > y.Score then x :: y :: ys else y :: insertScoredDesc x ys

/-- The full insertion sort over the scored candidates. -/
def sortScoredDesc (l : List SearchResult) : List SearchResult :=
  l.foldl (fun acc x => insertScoredDesc x acc) []

/-- The candidate-collection loop of `Search`: every document with a
positive score against the query tokens, in corpus order. -/
def searchResults (log : ℚ → ℚ) (idx : BM25Index)
    (queryTokens : List String) : List SearchResult :=
  idx.docs.filterMap fun p =>
    let score := scoreDoc log idx queryTokens p.2
    if 0 < score then some { ID := p.2.id, Score := score } else none

/-- Embedding of `BM25Index.Search`: top-k documents by descending score. -/
def BM25Index.Search (log : ℚ → ℚ) (idx : BM25Index) (query : String)
    (k : Int) : List SearchResult :=
  let queryTokens := tokenize query
  if queryTokens.length = 0 ∨ k ≤ 0 then []
  else if idx.docs.length = 0 then []
  else (sortScoredDesc (searchResults log idx queryTokens)).take k.toNat

/-- Embedding of `BM25Index.Rebuild`: recompute all document frequencies
from the retained per-document tf tables, and the average length. -/
def BM25Index.Rebuild (idx : BM25Index) : BM25Index :=
  { idx with
    df := idx.docs.foldl (fun m p => dfAdd m p.2.tf) []
    avgLen := recomputeAvgLen idx.docs }

/-- Document-frequency read with Go's zero default for absent keys. -/
def dfGetZ (m : List (String × Int)) (t : String) : Int :=
  (alookup m t).getD 0

/-- Number of indexed documents whose term set contains `t` — the value the
document-frequency table is meant to cache. -/
def countDocs (docs : List (String × Bm25Doc)) (t : String) : Int :=
  ((docs.filter fun p => (alookup p.2.tf t).isSome).length : Int)

/-- The well-formedness invariant every reachable `BM25Index` satisfies:
canonical (sorted) tables, no zero-or-negative document-frequency entries,
document frequencies equal to the batch-recomputed counts, and the cached
average length equal to its recomputation. -/
def Bm25Inv (idx : BM25Index) : Prop :=
  keysSorted idx.docs = true ∧
  keysSorted idx.df = true ∧
  (∀ p ∈ idx.docs, keysSorted p.2.tf = true) ∧
  (∀ q ∈ idx.df, 0 < q.2) ∧
  (∀ t, dfGetZ idx.df t = countDocs idx.docs t) ∧
  idx.avgLen = recomputeAvgLen idx.docs

/-- A mutation of the BM25 index. -/
inductive Bm25Op where
  | ix (id text : String) (tags : List String)
  | rm (id : String)

/-- Run one mutation. -/
def applyBm25Op (idx : BM25Index) : Bm25Op → BM25Index
  | .ix id text tags => idx.Index id text tags
  | .rm id => idx.Remove id

/-- Run a sequence of mutations. -/
def applyBm25Ops (idx : BM25Index) (ops : List Bm25Op) : BM25Index :=
  ops.foldl applyBm25Op idx

/-! ## Store data model (types.go, store.go)

Hook records are omitted: their stored values are bare Go closures, no
claim touches them, and they share no state with the tool/skill tables. -/

/-- Embedding of `ToolDefinition`.  `InputSchema` is an opaque payload
(`map[string]any` in Go) that the core stores and returns but never
inspects, embedded as an uninterpreted string. -/
structure ToolDefinition where
  Name : String
  Description : String
  InputSchema : String
deriving DecidableEq

/-- Opaque reference to a tool handler closure; the core stores and
returns it but never invokes it. -/
abbrev ToolHandler : Type := Nat

/-- Embedding of `StoredTool` (the Go struct embeds `ToolDefinition`). -/
structure StoredTool where
  ToolDefinition : ToolDefinition
  Source : String
  Tags : List String
  Handler : Option ToolHandler
deriving DecidableEq

/-- Embedding of `SkillExample`. -/
structure SkillExample where
  Query : String
  ToolsUsed : List String
  Description : String
deriving DecidableEq

/-- Embedding of `StoredSkill`.  `Handlers` is the canonical form of the
Go map `map[string]ToolHandler` (only non-nil handlers are stored). -/
structure StoredSkill where
  Name : String
  Description : String
  Tags : List String
  Category : String
  Tools : List ToolDefinition
  Handlers : List (String × ToolHandler)
  Dependencies : List String
  Examples : List SkillExample
  Priority : Int
  Metadata : List (String × String)
deriving DecidableEq

/-- Modelled from the spec: the go-memdb transactional table store behind
`Store` is an external library, not part of this repository's sources.
Per the spec it is a multiply-indexed in-memory table store with
all-or-nothing writes and point-in-time read snapshots; its tables are
finite maps keyed by the unique primary field, which we embed as canonical
sorted association lists (matching the radix-tree iterators' lexicographic
enumeration order). -/
structure Store where
  tools : List (String × StoredTool)
  skills : List (String × StoredSkill)
deriving DecidableEq

/-- Embedding of `NewStore`: empty tables. -/
def NewStore : Store := { tools := [], skills := [] }

/-- Embedding of `Store.InsertTool`: upsert keyed by tool name. -/
def Store.InsertTool (s : Store) (tool : StoredTool) : Store :=
  { s with tools := ainsert tool.ToolDefinition.Name tool s.tools }

/-- Embedding of `Store.DeleteTool`: idempotent delete by name. -/
def Store.DeleteTool (s : Store) (name : String) : Store :=
  match alookup s.tools name with
  | none => s
  | some _ => { s with tools := aerase name s.tools }

/-- Embedding of `Store.GetTool`. -/
def Store.GetTool (s : Store) (name : String) : Option StoredTool :=
  alookup s.tools name

/-- Embedding of `Store.ListTools`: all tools in primary-index order. -/
def Store.ListTools (s : Store) : List StoredTool :=
  s.tools.map Prod.snd

/-- Embedding of `Store.ListToolsBySource`. -/
def Store.ListToolsBySource (s : Store) (source : String) : List StoredTool :=
  (s.tools.filter fun p => decide (p.2.Source = source)).map Prod.snd

/-- Embedding of `Store.ListToolsByTag` (multi-valued tag membership). -/
def Store.ListToolsByTag (s : Store) (tag : String) : List StoredTool :=
  (s.tools.filter fun p => decide (tag ∈ p.2.Tags)).map Prod.snd

/-- Embedding of `Store.InsertSkill`. -/
def Store.InsertSkill (s : Store) (skill : StoredSkill) : Store :=
  { s with skills := ainsert skill.Name skill s.skills }

/-- Embedding of `Store.DeleteSkill`. -/
def Store.DeleteSkill (s : Store) (name : String) : Store :=
  match alookup s.skills name with
  | none => s
  | some _ => { s with skills := aerase name s.skills }

/-- Embedding of `Store.GetSkill`. -/
def Store.GetSkill (s : Store) (name : String) : Option StoredSkill :=
  alookup s.skills name

/-- Embedding of `Store.ListSkills`. -/
def Store.ListSkills (s : Store) : List StoredSkill :=
  s.skills.map Prod.snd

/-- Embedding of `Store.ListSkillsByCategory`. -/
def Store.ListSkillsByCategory (s : Store) (category : String) : List StoredSkill :=
  (s.skills.filter fun p => decide (p.2.Category = category)).map Prod.snd

/-- Embedding of `Store.ListSkillsByTag`. -/
def Store.ListSkillsByTag (s : Store) (tag : String) : List StoredSkill :=
  (s.skills.filter fun p => decide (tag ∈ p.2.Tags)).map Prod.snd

/-! ## Snapshots (store.go: Snapshot / StoreSnapshot) -/

/-- Modelled from the spec: `Snapshot` hands out a read transaction of the
external MVCC engine; its reads reflect exactly the state committed at the
moment of the call.  The handle is therefore embedded as the captured
state value. -/
structure StoreSnapshot where
  txn : Store
deriving DecidableEq

/-- Embedding of `Store.Snapshot`. -/
def Store.Snapshot (s : Store) : StoreSnapshot := { txn := s }

/-- Embedding of `StoreSnapshot.Tools`. -/
def StoreSnapshot.Tools (ss : StoreSnapshot) : List StoredTool :=
  ss.txn.ListTools

/-- Embedding of `StoreSnapshot.ToolsBySource`. -/
def StoreSnapshot.ToolsBySource (ss : StoreSnapshot) (source : String) :
    List StoredTool :=
  ss.txn.ListToolsBySource source

/-- Embedding of `StoreSnapshot.ToolsByTag`. -/
def StoreSnapshot.ToolsByTag (ss : StoreSnapshot) (tag : String) :
    List StoredTool :=
  ss.txn.ListToolsByTag tag

/-- Embedding of `StoreSnapshot.Skills`. -/
def StoreSnapshot.Skills (ss : StoreSnapshot) : List StoredSkill :=
  ss.txn.ListSkills

/-- Embedding of `StoreSnapshot.SkillsByCategory`. -/
def StoreSnapshot.SkillsByCategory (ss : StoreSnapshot) (category : String) :
    List StoredSkill :=
  ss.txn.ListSkillsByCategory category

/-- A write issued against the store after a snapshot was taken. -/
inductive WriteOp where
  | insTool (t : StoredTool)
  | delTool (name : String)
  | insSkill (sk : StoredSkill)
  | delSkill (name : String)

/-- Run one write transaction. -/
def applyWriteOp (s : Store) : WriteOp → Store
  | .insTool t => s.InsertTool t
  | .delTool name => s.DeleteTool name
  | .insSkill sk => s.InsertSkill sk
  | .delSkill name => s.DeleteSkill name

/-- A program holding both the live store and an open snapshot: writes go
through the store's write transactions and never touch the snapshot's read
transaction. -/
structure Sess where
  store : Store
  snap : StoreSnapshot

/-- Take a snapshot of the current store. -/
def Sess.openSnap (s : Store) : Sess := { store := s, snap := s.Snapshot }

/-- Issue one write against the live store. -/
def Sess.write (sess : Sess) (op : WriteOp) : Sess :=
  { sess with store := applyWriteOp sess.store op }

/-- Issue a sequence of writes against the live store. -/
def Sess.writes (sess : Sess) (ops : List WriteOp) : Sess :=
  ops.foldl Sess.write sess

/-! ## Tool registry (ToolRegistry) -/

/-- Embedding of `ToolRegistry`: a store-backed name → tool table. -/
structure ToolRegistry where
  store : Store
deriving DecidableEq

/-- Embedding of `NewToolRegistryWithStore`. -/
def NewToolRegistryWithStore (store : Store) : ToolRegistry :=
  { store := store }

/-- Embedding of `ToolRegistry.RegisterWithSource`. -/
def ToolRegistry.RegisterWithSource (r : ToolRegistry) (d : ToolDefinition)
    (handler : Option ToolHandler) (source : String) (tags : List String) :
    ToolRegistry :=
  { store := r.store.InsertTool
      { ToolDefinition := d, Source := source, Tags := tags, Handler := handler } }

/-- Embedding of `ToolRegistry.Has`. -/
def ToolRegistry.Has (r : ToolRegistry) (name : String) : Bool :=
  (r.store.GetTool name).isSome

/-! ## Skill registry resolution (SkillRegistry.Resolve) -/

/-- Embedding of `SkillRegistry`. -/
structure SkillRegistry where
  store : Store

/-- Embedding of `NewSkillRegistry`. -/
def NewSkillRegistry (store : Store) : SkillRegistry := { store := store }

/-- The tool-registration loop at the end of `resolve`: each of the
skill's tools enters the result registry with source `skill:<name>` and the
skill's tags. -/
def addSkillTools (reg : ToolRegistry) (name : String)
    (stored : StoredSkill) : ToolRegistry :=
  stored.Tools.foldl (fun r d =>
    r.RegisterWithSource d (alookup stored.Handlers d.Name)
      ("skill:" ++ name) stored.Tags) reg

/-- Embedding of the inner closure `resolve` of `SkillRegistry.Resolve`.
The Go recursion terminates because the per-call visited set grows; here
the same recursion carries fuel, and `none` marks fuel exhaustion — shown
unreachable for the wrapper's bound (`resolveList_total`).  The sequential
`for _, dep := range stored.Dependencies` loop with its early error return
is the foldl. -/
def resolveGo (st : Store) : Nat → List String → ToolRegistry → String →
    Option (Except String (List String × ToolRegistry))
  | 0, _, _, _ => none
  | fuel + 1, v, reg, name =>
    if name ∈ v then some (.ok (v, reg))
    else
      match st.GetSkill name with
      | none => some (.error ("skill not found: " ++ name))
      | some stored =>
        match stored.Dependencies.foldl
            (fun (acc : Option (Except String (List String × ToolRegistry))) dep =>
            match acc with
            | none => none
            | some (.error e) => some (.error e)
            | some (.ok (v', reg')) => resolveGo st fuel v' reg' dep)
          (some (.ok (name :: v, reg))) with
        | none => none
        | some (.error e) => some (.error e)
        | some (.ok (v', reg')) => some (.ok (v', addSkillTools reg' name stored))

/-- One iteration of the sequential resolution loop: failures and errors
pass through, otherwise the next name is resolved from the carried state. -/
def resolveStep
    (f : List String → ToolRegistry → String →
      Option (Except String (List String × ToolRegistry)))
    (acc : Option (Except String (List String × ToolRegistry)))
    (dep : String) : Option (Except String (List String × ToolRegistry)) :=
  match acc with
  | none => none
  | some (.error e) => some (.error e)
  | some (.ok (v', reg')) => f v' reg' dep

/-- The sequential resolution loop, abstracted over the per-name resolver:
the shape of both the dependency loop inside `resolve` and the top-level
loop over the requested names. -/
def resolveList
    (f : List String → ToolRegistry → String →
      Option (Except String (List String × ToolRegistry)))
    (v : List String) (reg : ToolRegistry) (names : List String) :
    Option (Except String (List String × ToolRegistry)) :=
  names.foldl (resolveStep f) (some (.ok (v, reg)))

/-- The dependency loop of `resolveGo` is `resolveList` of the next fuel
level. -/
theorem resolveGo_succ (st : Store) (fuel : Nat) (v : List String)
    (reg : ToolRegistry) (name : String) :
    resolveGo st (fuel + 1) v reg name =
      if name ∈ v then some (.ok (v, reg))
      else
        match st.GetSkill name with
        | none => some (.error ("skill not found: " ++ name))
        | some stored =>
          match resolveList (resolveGo st fuel) (name :: v) reg
              stored.Dependencies with
          | none => none
          | some (.error e) => some (.error e)
          | some (.ok (v', reg')) =>
            some (.ok (v', addSkillTools reg' name stored)) := rfl

/-- Embedding of `SkillRegistry.Resolve`: resolve the named skills and
their transitive dependencies into a fresh store-backed registry.  The
fuel bound `skills + 1` covers the deepest possible expansion chain. -/
def SkillRegistry.Resolve (sr : SkillRegistry) (names : List String) :
    Option (Except String ToolRegistry) :=
  match resolveList (resolveGo sr.store (sr.store.skills.length + 1)) []
      (NewToolRegistryWithStore NewStore) names with
  | none => none
  | some (.error e) => some (.error e)
  | some (.ok (_, reg)) => some (.ok reg)

/-- Reachability through dependency lists from a set of root names. -/
inductive Reach (st : Store) (roots : List String) : String → Prop where
  | root (n : String) (h : n ∈ roots) : Reach st roots n
  | dep (n d : String) (sk : StoredSkill) (hn : Reach st roots n)
      (hsk : st.GetSkill n = some sk) (hd : d ∈ sk.Dependencies) :
      Reach st roots d

/-- Number of registered skill names not yet in the visited set: the
measure that shrinks at every expansion step of `resolve`. -/
def unvisitedCount (st : Store) (v : List String) : Nat :=
  ((st.skills.map Prod.fst).filter fun n => decide (¬n ∈ v)).length

/-- What a completed resolution call guarantees about the names it added
to the visited set: each one was found in the store, its dependency list
was fully visited, and its tools all entered the result registry. -/
def ExpandedOk (st : Store) (reg : ToolRegistry)
    (vin vout : List String) : Prop :=
  ∀ x ∈ vout, x ∈ vin ∨ ∃ sk, st.GetSkill x = some sk ∧
    (∀ d ∈ sk.Dependencies, d ∈ vout) ∧
    (∀ d ∈ sk.Tools, ToolRegistry.Has reg d.Name = true)

/-! ## Context builder (context.go) -/

/-- Embedding of `ContextBuilder`.  The `SkillIndex` interface value is
embedded by the one method `SelectTools` consumes, its ranked `Search`. -/
structure ContextBuilder where
  store : Store
  index : Option (String → Int → List SearchResult)
  maxTools : Int

/-- Embedding of `NewContextBuilder` with no options applied. -/
def NewContextBuilder (store : Store) : ContextBuilder :=
  { store := store, index := none, maxTools := 20 }

/-- The per-query accumulation of `resolveSkillTools`: the visited set, the
merged tool set keyed by name, and the score map (zero-defaulted, as a Go
map read). -/
structure ToolAcc where
  visited : List String
  toolSet : List (String × ToolDefinition)
  toolScores : String → ℚ

/-- Point update of the score map. -/
def updateScore (f : String → ℚ) (n : String) (s : ℚ) : String → ℚ :=
  fun m => if m = n then s else f m

/-- The `for _, def := range skill.Tools` loop: insert each tool and raise
its recorded score to `score` when strictly greater. -/
def addToolDefs (score : ℚ) (tools : List ToolDefinition) (acc : ToolAcc) :
    ToolAcc :=
  tools.foldl (fun a d =>
    { a with
      toolSet := ainsert d.Name d a.toolSet
      toolScores :=
        if a.toolScores d.Name < score then updateScore a.toolScores d.Name score
        else a.toolScores }) acc

/-- Embedding of `resolveSkillTools`: recursively resolve a skill and its
dependencies, decaying the score by 0.5 per level.  Fueled like
`resolveGo`; at fuel 0 it returns the accumulator unchanged, and the
wrapper's bound exceeds every reachable chain.  The
`for _, dep := range skill.Dependencies` loop is the foldl. -/
def resolveSkillTools (cb : ContextBuilder) : Nat → String → ℚ → ℚ →
    ToolAcc → ToolAcc
  | 0, _, _, _, acc => acc
  | fuel + 1, skillID, baseScore, depthFactor, acc =>
    if skillID ∈ acc.visited then acc
    else
      let acc₁ := { acc with visited := skillID :: acc.visited }
      match cb.store.GetSkill skillID with
      | none => acc₁
      | some skill =>
        let score := baseScore * depthFactor
        let acc₂ := addToolDefs score skill.Tools acc₁
        skill.Dependencies.foldl (fun a dep =>
          resolveSkillTools cb fuel dep baseScore (depthFactor * (1 / 2)) a) acc₂

/-- The dependency-expansion pass of `SelectTools`: each candidate bundle
is expanded with a fresh visited set while the tool set and score map are
shared across candidates. -/
def selectToolsExpand (cb : ContextBuilder) (skillResults : List SearchResult) :
    ToolAcc :=
  skillResults.foldl (fun acc sr =>
    resolveSkillTools cb (cb.store.skills.length + 1) sr.ID sr.Score 1
      { visited := [], toolSet := acc.toolSet, toolScores := acc.toolScores })
    { visited := [], toolSet := [], toolScores := fun _ => 0 }

/-- One sift step of the descending insertion sort over tool definitions,
comparing recorded scores. -/
def insertToolDesc (scores : String → ℚ) (x : ToolDefinition) :
    List ToolDefinition → List ToolDefinition
  | [] => [x]
  | y :: ys =>
    if scores y.Name < scores x.Name then x :: y :: ys
    else y :: insertToolDesc scores x ys

/-- The insertion sort `SelectTools` runs when the merged set is too big. -/
def sortToolsDesc (scores : String → ℚ) (l : List ToolDefinition) :
    List ToolDefinition :=
  l.foldl (fun acc x => insertToolDesc scores x acc) []

/-- Embedding of `ContextBuilder.allToolDefs`. -/
def ContextBuilder.allToolDefs (cb : ContextBuilder) : List ToolDefinition :=
  (cb.store.ListTools).map fun t => t.ToolDefinition

/-- Embedding of `ContextBuilder.SelectTools`. -/
def ContextBuilder.SelectTools (cb : ContextBuilder) (query : String) :
    List ToolDefinition :=
  match cb.index with
  | none => (cb.store.ListTools).map fun t => t.ToolDefinition
  | some search =>
    if query = "" then (cb.store.ListTools).map fun t => t.ToolDefinition
    else
      let skillResults := search query 10
      if skillResults.length = 0 then cb.allToolDefs
      else
        let acc := selectToolsExpand cb skillResults
        let defs := acc.toolSet.map Prod.snd
        if (defs.length : Int) > cb.maxTools then
          (sortToolsDesc acc.toolScores defs).take cb.maxTools.toNat
        else defs

deriving instance DecidableEq for Except

/-! ## Concrete instances used to instantiate the theorems -/

/-- A tool named "t" with empty metadata. -/
def exTool : ToolDefinition := { Name := "t", Description := "", InputSchema := "" }

/-- Skill "c": owns tool "t", no dependencies. -/
def exSkillC : StoredSkill where
  Name := "c"
  Description := ""
  Tags := []
  Category := ""
  Tools := [exTool]
  Handlers := []
  Dependencies := []
  Examples := []
  Priority := 0
  Metadata := []

/-- Skill "b": no tools, depends on "c". -/
def exSkillB : StoredSkill := { exSkillC with
  Name := "b"
  Tools := []
  Dependencies := ["c"] }

/-- Skill "a": no tools, depends on "b" and directly on "c". -/
def exSkillA : StoredSkill := { exSkillC with
  Name := "a"
  Tools := []
  Dependencies := ["b", "c"] }

/-- A store holding the diamond a → b → c, a → c. -/
def exStore : Store :=
  { tools := [], skills := [("a", exSkillA), ("b", exSkillB), ("c", exSkillC)] }

/-- A context builder over `exStore` whose index always returns the single
candidate "a" with score 1. -/
def exCb : ContextBuilder :=
  { store := exStore, index := some fun _ _ => [{ ID := "a", Score := 1 }]
    maxTools := 20 }

/-- Skill "a" with an unregistered dependency "d" alongside "b". -/
def exSkillABroken : StoredSkill := { exSkillC with
  Name := "a"
  Tools := []
  Dependencies := ["b", "d"] }

/-- A store where "a", "b", "c" are registered but "a" also depends on the
missing "d". -/
def exStoreBroken : Store :=
  { tools := [], skills := [("a", exSkillABroken), ("b", exSkillB), ("c", exSkillC)] }

/-- Skill "a" of the two-cycle: owns "ta", depends on "b". -/
def exSkillCycA : StoredSkill := { exSkillC with
  Name := "a"
  Tools := [{ Name := "ta", Description := "", InputSchema := "" }]
  Dependencies := ["b"] }

/-- Skill "b" of the two-cycle: owns "tb", depends back on "a". -/
def exSkillCycB : StoredSkill := { exSkillC with
  Name := "b"
  Tools := [{ Name := "tb", Description := "", InputSchema := "" }]
  Dependencies := ["a"] }

/-- A store holding the dependency cycle a → b → a. -/
def exStoreCyc : Store :=
  { tools := [], skills := [("a", exSkillCycA), ("b", exSkillCycB)] }

/-- A two-document corpus: "d1" says "t t", "d2" says "t x". -/
def exampleIdx : BM25Index := (NewBM25Index.Index "d1" "t t" []).Index "d2" "t x" []

/-- A linear stand-in satisfying every property the theorems assume of the
logarithm: it vanishes at 1 and is strictly monotone. -/
def linLog (x : ℚ) : ℚ := x - 1

/-- A registered tool "t1" with its store metadata. -/
def exStoredT1 : StoredTool where
  ToolDefinition := { Name := "t1", Description := "", InputSchema := "" }
  Source := "builtin"
  Tags := []
  Handler := none

/-- A second registered tool "t2". -/
def exStoredT2 : StoredTool := { exStoredT1 with
  ToolDefinition := { Name := "t2", Description := "", InputSchema := "" } }

/-- A store whose tool catalog holds "t1" and "t2" and no skills. -/
def exStoreTools : Store :=
  { tools := [("t1", exStoredT1), ("t2", exStoredT2)], skills := [] }

/-- A context builder over `exStoreTools` with no relevance index. -/
def exCbNoIdx : ContextBuilder := NewContextBuilder exStoreTools

/-- The empty accumulator the expansion pass of `SelectTools` starts from. -/
def emptyToolAcc : ToolAcc :=
  { visited := [], toolSet := [], toolScores := fun _ => 0 }

/-- The descending order maintained by the insertion sort in `Search`. -/
def SortedDesc (l : List SearchResult) : Prop :=
  List.Pairwise (fun a b => b.Score ≤ a.Score) l

/-! ## Order lemmas for the canonical key order -/

theorem char_eq_of_toNat_eq {c d : Char} (h : c.toNat = d.toNat) : c = d := by
  refine Char.ext ?_
  have h' : c.val.toNat = d.val.toNat := h
  exact UInt32.toNat.inj h'

theorem chainLt_irrefl (l : List Char) : chainLt l l = false := by
  induction l with
  | nil => rfl
  | cons c t ih => simp [chainLt, ih]

theorem chainLt_cons_iff (c d : Char) (cs ds : List Char) :
    chainLt (c :: cs) (d :: ds) = true ↔
      c.toNat < d.toNat ∨ (c.toNat = d.toNat ∧ chainLt cs ds = true) := by
  by_cases h1 : c.toNat < d.toNat
  · simp [chainLt, h1]
  · by_cases h2 : d.toNat < c.toNat
    · simp only [chainLt, if_neg h1, if_pos h2, Bool.false_eq_true, false_iff]
      rintro (h | ⟨h, _⟩) <;> omega
    · simp only [chainLt, if_neg h1, if_neg h2]
      constructor
      · intro h
        right
        exact ⟨by omega, h⟩
      · rintro (h | ⟨_, h⟩)
        · exact absurd h h1
        · exact h

theorem chainLt_trans {a b c : List Char} (h1 : chainLt a b = true)
    (h2 : chainLt b c = true) : chainLt a c = true := by
  induction a generalizing b c with
  | nil =>
    cases b with
    | nil => simp [chainLt] at h1
    | cons bh bt =>
      cases c with
      | nil => simp [chainLt] at h2
      | cons ch ct => rfl
  | cons ah tl ih =>
    cases b with
    | nil => simp [chainLt] at h1
    | cons bh bt =>
      cases c with
      | nil => simp [chainLt] at h2
      | cons ch ct =>
        rw [chainLt_cons_iff] at h1 h2 ⊢
        rcases h1 with h1 | ⟨he1, ht1⟩
        · rcases h2 with h2 | ⟨he2, ht2⟩
          · left; omega
          · left; omega
        · rcases h2 with h2 | ⟨he2, ht2⟩
          · left; omega
          · right; exact ⟨by omega, ih ht1 ht2⟩

theorem chainLt_eq_of_both_not {a b : List Char} (h1 : chainLt a b = false)
    (h2 : chainLt b a = false) : a = b := by
  induction a generalizing b with
  | nil =>
    cases b with
    | nil => rfl
    | cons bh bt => simp [chainLt] at h1
  | cons ah tl ih =>
    cases b with
    | nil => simp [chainLt] at h2
    | cons bh bt =>
      have h1' : ¬chainLt (ah :: tl) (bh :: bt) = true := by simp [h1]
      have h2' : ¬chainLt (bh :: bt) (ah :: tl) = true := by simp [h2]
      rw [chainLt_cons_iff] at h1' h2'
      push_neg at h1' h2'
      have he : ah.toNat = bh.toNat := by omega
      have hch : chainLt tl bt = false := by
        by_cases hc : chainLt tl bt = true
        · exact absurd hc (h1'.2 he)
        · exact Bool.eq_false_iff.mpr hc
      have hcb : chainLt bt tl = false := by
        by_cases hc : chainLt bt tl = true
        · exact absurd hc (h2'.2 he.symm)
        · exact Bool.eq_false_iff.mpr hc
      rw [char_eq_of_toNat_eq he, ih hch hcb]

theorem string_data_inj {a b : String} (h : a.data = b.data) : a = b := by
  cases a
  cases b
  exact congrArg String.mk h

theorem strLt_irrefl (a : String) : strLt a a = false := chainLt_irrefl a.data

theorem strLt_trans {a b c : String} (h1 : strLt a b = true)
    (h2 : strLt b c = true) : strLt a c = true := chainLt_trans h1 h2

theorem ne_of_strLt {a b : String} (h : strLt a b = true) : a ≠ b := by
  intro he
  subst he
  rw [strLt_irrefl] at h
  cases h

theorem strLt_connex {a b : String} (h : a ≠ b) :
    strLt a b = true ∨ strLt b a = true := by
  by_cases h1 : strLt a b = true
  · left; exact h1
  · by_cases h2 : strLt b a = true
    · right; exact h2
    · have hf1 : strLt a b = false := Bool.eq_false_iff.mpr h1
      have hf2 : strLt b a = false := Bool.eq_false_iff.mpr h2
      exact absurd (string_data_inj (chainLt_eq_of_both_not hf1 hf2)) h

/-! ## Association-list lemmas -/

theorem strSorted_cons (a : String) (l : List String)
    (h : strSorted (a :: l) = true) : strSorted l = true := by
  cases l with
  | nil => rfl
  | cons b t =>
    simp only [strSorted, Bool.and_eq_true] at h
    exact h.2

theorem strSorted_head_lt (a : String) (l : List String)
    (h : strSorted (a :: l) = true) : ∀ b ∈ l, strLt a b = true := by
  induction l generalizing a with
  | nil => intro b hb; cases hb
  | cons c t ih =>
    simp only [strSorted, Bool.and_eq_true] at h
    intro b hb
    rcases List.mem_cons.mp hb with rfl | hb'
    · exact h.1
    · exact strLt_trans h.1 (ih c h.2 b hb')

theorem strSorted_cons_of (a : String) (l : List String)
    (hl : strSorted l = true) (ha : ∀ b ∈ l, strLt a b = true) :
    strSorted (a :: l) = true := by
  cases l with
  | nil => rfl
  | cons b t =>
    simp only [strSorted, Bool.and_eq_true]
    exact ⟨ha b (List.mem_cons_self _ _), hl⟩

theorem keysSorted_cons {β : Type} (k : String) (v : β)
    (l : List (String × β)) (h : keysSorted ((k, v) :: l) = true) :
    keysSorted l = true :=
  strSorted_cons k (l.map Prod.fst) h

theorem keysSorted_head_lt {β : Type} (k : String) (v : β)
    (l : List (String × β)) (h : keysSorted ((k, v) :: l) = true) :
    ∀ p ∈ l, strLt k p.1 = true := by
  intro p hp
  exact strSorted_head_lt k (l.map Prod.fst) h p.1 (List.mem_map_of_mem Prod.fst hp)

theorem keysSorted_cons_of {β : Type} (k : String) (v : β)
    (l : List (String × β)) (hl : keysSorted l = true)
    (hk : ∀ p ∈ l, strLt k p.1 = true) : keysSorted ((k, v) :: l) = true := by
  refine strSorted_cons_of k (l.map Prod.fst) hl ?_
  intro b hb
  rcases List.mem_map.mp hb with ⟨p, hp, rfl⟩
  exact hk p hp

theorem alookup_eq_none_of_head_lt {β : Type} (k : String)
    (l : List (String × β)) (h : ∀ p ∈ l, strLt k p.1 = true) :
    alookup l k = none := by
  induction l with
  | nil => rfl
  | cons p t ih =>
    rcases p with ⟨k', v'⟩
    have hk : strLt k k' = true := h (k', v') (List.mem_cons_self _ _)
    simp only [alookup, if_neg (ne_of_strLt hk)]
    exact ih fun q hq => h q (List.mem_cons_of_mem _ hq)

/-- Lookup after an upsert at the same key. -/
theorem alookup_ainsert_self {β : Type} (k : String) (v : β)
    (l : List (String × β)) : alookup (ainsert k v l) k = some v := by
  induction l with
  | nil => simp [ainsert, alookup]
  | cons p t ih =>
    rcases p with ⟨k', v'⟩
    by_cases hk : k = k'
    · simp [ainsert, alookup, hk]
    · by_cases hlt : strLt k k' = true
      · simp [ainsert, hk, hlt, alookup]
      · simp [ainsert, hk, hlt, alookup, ih]

/-- Lookup after an upsert at a different key. -/
theorem alookup_ainsert_ne {β : Type} (k k' : String) (v : β)
    (l : List (String × β)) (h : k' ≠ k) :
    alookup (ainsert k v l) k' = alookup l k' := by
  induction l with
  | nil => simp [ainsert, alookup, h]
  | cons p t ih =>
    rcases p with ⟨k₀, v₀⟩
    by_cases hk : k = k₀
    · subst hk
      simp [ainsert, alookup, h]
    · by_cases hlt : strLt k k₀ = true
      · simp [ainsert, hk, hlt, alookup, h]
      · by_cases hk' : k' = k₀
        · simp [ainsert, hk, hlt, alookup, hk']
        · simp [ainsert, hk, hlt, alookup, hk', ih]

/-- Lookup after an erase at the erased key, assuming sorted keys. -/
theorem alookup_aerase_self {β : Type} (k : String)
    (l : List (String × β)) (hs : keysSorted l = true) :
    alookup (aerase k l) k = none := by
  induction l with
  | nil => rfl
  | cons p t ih =>
    rcases p with ⟨k', v'⟩
    by_cases hk : k = k'
    · subst hk
      simp only [aerase, if_pos rfl]
      exact alookup_eq_none_of_head_lt k t (keysSorted_head_lt k v' t hs)
    · simp only [aerase, if_neg hk, alookup, if_neg hk]
      exact ih (keysSorted_cons k' v' t hs)

/-- Lookup after an erase at a different key. -/
theorem alookup_aerase_ne {β : Type} (k k' : String)
    (l : List (String × β)) (h : k' ≠ k) :
    alookup (aerase k l) k' = alookup l k' := by
  induction l with
  | nil => rfl
  | cons p t ih =>
    rcases p with ⟨k₀, v₀⟩
    by_cases hk : k = k₀
    · subst hk
      simp [aerase, alookup, if_neg h]
    · by_cases hk' : k' = k₀
      · simp [aerase, hk, alookup, hk']
      · simp [aerase, hk, alookup, hk', ih]

theorem ainsert_mem_cases {β : Type} (k : String) (v : β)
    (l : List (String × β)) (q : String × β) (h : q ∈ ainsert k v l) :
    q = (k, v) ∨ q ∈ l := by
  induction l with
  | nil =>
    simp only [ainsert, List.mem_singleton] at h
    left; exact h
  | cons p t ih =>
    rcases p with ⟨k', v'⟩
    by_cases hk : k = k'
    · simp only [ainsert, if_pos hk, List.mem_cons] at h
      rcases h with h1 | h2
      · left; exact h1
      · right; exact List.mem_cons_of_mem _ h2
    · by_cases hlt : strLt k k' = true
      · simp only [ainsert, if_neg hk, if_pos hlt, List.mem_cons] at h
        rcases h with h1 | h2 | h3
        · left; exact h1
        · right; rw [h2]; exact List.mem_cons_self _ _
        · right; exact List.mem_cons_of_mem _ h3
      · simp only [ainsert, if_neg hk, if_neg hlt, List.mem_cons] at h
        rcases h with h1 | h2
        · right; rw [h1]; exact List.mem_cons_self _ _
        · rcases ih h2 with h3 | h4
          · left; exact h3
          · right; exact List.mem_cons_of_mem _ h4

theorem keysSorted_ainsert {β : Type} (k : String) (v : β)
    (l : List (String × β)) (hs : keysSorted l = true) :
    keysSorted (ainsert k v l) = true := by
  induction l with
  | nil => rfl
  | cons p t ih =>
    rcases p with ⟨k', v'⟩
    have ht := keysSorted_cons k' v' t hs
    have hhd := keysSorted_head_lt k' v' t hs
    by_cases hk : k = k'
    · subst hk
      simp only [ainsert, if_pos rfl]
      exact keysSorted_cons_of k v t ht hhd
    · by_cases hlt : strLt k k' = true
      · simp only [ainsert, if_neg hk, if_pos hlt]
        refine keysSorted_cons_of k v _ hs ?_
        intro p hp
        rcases List.mem_cons.mp hp with rfl | hp'
        · exact hlt
        · exact strLt_trans hlt (hhd p hp')
      · have hgt : strLt k' k = true := by
          rcases strLt_connex hk with h | h
          · exact absurd h hlt
          · exact h
        simp only [ainsert, if_neg hk, if_neg hlt]
        refine keysSorted_cons_of k' v' _ (ih ht) ?_
        intro q hq
        rcases ainsert_mem_cases k v t q hq with h1 | h2
        · rw [h1]; exact hgt
        · exact hhd q h2

theorem aerase_subset {β : Type} (k : String) (l : List (String × β)) :
    ∀ q ∈ aerase k l, q ∈ l := by
  induction l with
  | nil => intro q hq; cases hq
  | cons p t ih =>
    rcases p with ⟨k', v'⟩
    intro q hq
    by_cases hk : k = k'
    · simp only [aerase, if_pos hk] at hq
      exact List.mem_cons_of_mem _ hq
    · simp only [aerase, if_neg hk, List.mem_cons] at hq
      rcases hq with h1 | h2
      · rw [h1]; exact List.mem_cons_self _ _
      · exact List.mem_cons_of_mem _ (ih q h2)

theorem keysSorted_aerase {β : Type} (k : String)
    (l : List (String × β)) (hs : keysSorted l = true) :
    keysSorted (aerase k l) = true := by
  induction l with
  | nil => rfl
  | cons p t ih =>
    rcases p with ⟨k', v'⟩
    have ht := keysSorted_cons k' v' t hs
    have hhd := keysSorted_head_lt k' v' t hs
    by_cases hk : k = k'
    · simp only [aerase, if_pos hk]
      exact ht
    · simp only [aerase, if_neg hk]
      refine keysSorted_cons_of k' v' _ (ih ht) ?_
      intro q hq
      exact hhd q (aerase_subset k t q hq)

theorem aerase_eq_of_forall_lt {β : Type} (k : String)
    (l : List (String × β)) (h : ∀ p ∈ l, strLt k p.1 = true) :
    aerase k l = l := by
  induction l with
  | nil => rfl
  | cons p t ih =>
    rcases p with ⟨k', v'⟩
    have hk : strLt k k' = true := h (k', v') (List.mem_cons_self _ _)
    simp only [aerase, if_neg (ne_of_strLt hk)]
    rw [ih fun q hq => h q (List.mem_cons_of_mem _ hq)]

/-- Re-inserting a key equals erasing it first (canonical maps): the
upsert path and the delete-then-insert path land the entry in the same
sorted position. -/
theorem ainsert_aerase {β : Type} (k : String) (v : β)
    (l : List (String × β)) (hs : keysSorted l = true) :
    ainsert k v (aerase k l) = ainsert k v l := by
  induction l with
  | nil => rfl
  | cons p t ih =>
    rcases p with ⟨k', v'⟩
    have ht := keysSorted_cons k' v' t hs
    have hhd := keysSorted_head_lt k' v' t hs
    by_cases hk : k = k'
    · subst hk
      simp only [aerase, if_pos rfl, ainsert, if_pos rfl]
      cases t with
      | nil => rfl
      | cons q u =>
        rcases q with ⟨k₀, v₀⟩
        have hlt : strLt k k₀ = true := hhd (k₀, v₀) (List.mem_cons_self _ _)
        simp [ainsert, ne_of_strLt hlt, hlt]
    · simp only [aerase, if_neg hk]
      by_cases hlt : strLt k k' = true
      · simp only [ainsert, if_neg hk, if_pos hlt]
        rw [aerase_eq_of_forall_lt k t fun q hq => strLt_trans hlt (hhd q hq)]
      · simp only [ainsert, if_neg hk, if_neg hlt]
        rw [ih ht]

/-- Sorted association lists with equal lookups are equal. -/
theorem alookup_ext {β : Type} (l₁ l₂ : List (String × β))
    (h₁ : keysSorted l₁ = true) (h₂ : keysSorted l₂ = true)
    (h : ∀ k, alookup l₁ k = alookup l₂ k) : l₁ = l₂ := by
  induction l₁ generalizing l₂ with
  | nil =>
    cases l₂ with
    | nil => rfl
    | cons p t =>
      rcases p with ⟨k, v⟩
      have := h k
      simp [alookup] at this
  | cons p t ih =>
    rcases p with ⟨k, v⟩
    cases l₂ with
    | nil =>
      have := h k
      simp [alookup] at this
    | cons q u =>
      rcases q with ⟨k', v'⟩
      have hkk' : k = k' := by
        by_contra hne
        rcases strLt_connex hne with hlt | hgt
        · -- k sorts before k': l₂ cannot contain k, but l₁ finds v at k
          have hnone : alookup ((k', v') :: u) k = none := by
            refine alookup_eq_none_of_head_lt k _ ?_
            intro p hp
            rcases List.mem_cons.mp hp with rfl | hp'
            · exact hlt
            · exact strLt_trans hlt (keysSorted_head_lt k' v' u h₂ p hp')
          have hv := h k
          rw [hnone] at hv
          simp [alookup] at hv
        · have hnone : alookup ((k, v) :: t) k' = none := by
            refine alookup_eq_none_of_head_lt k' _ ?_
            intro p hp
            rcases List.mem_cons.mp hp with rfl | hp'
            · exact hgt
            · exact strLt_trans hgt (keysSorted_head_lt k v t h₁ p hp')
          have hv := h k'
          rw [hnone] at hv
          simp [alookup] at hv
      subst hkk'
      have hvv' : v = v' := by
        have hv := h k
        simpa [alookup] using hv
      subst hvv'
      have htu : t = u := by
        refine ih u (keysSorted_cons k v t h₁) (keysSorted_cons k v u h₂) ?_
        intro k₀
        by_cases hk₀ : k₀ = k
        · subst hk₀
          rw [alookup_eq_none_of_head_lt k₀ t (keysSorted_head_lt k₀ v t h₁),
            alookup_eq_none_of_head_lt k₀ u (keysSorted_head_lt k₀ v u h₂)]
        · have := h k₀
          simpa [alookup, hk₀] using this
      rw [htu]
/-! ## Search contract lemmas -/

theorem insertScoredDesc_perm (x : SearchResult) (l : List SearchResult) :
    List.Perm (insertScoredDesc x l) (x :: l) := by
  induction l with
  | nil => exact List.Perm.refl _
  | cons y ys ih =>
    by_cases h : x.Score > y.Score
    · simp only [insertScoredDesc, if_pos h]
      exact List.Perm.refl _
    · simp only [insertScoredDesc, if_neg h]
      exact List.Perm.trans (List.Perm.cons y ih) (List.Perm.swap x y ys)

theorem sortedDesc_insertScoredDesc (x : SearchResult) (l : List SearchResult)
    (h : SortedDesc l) : SortedDesc (insertScoredDesc x l) := by
  induction l with
  | nil =>
    simp only [insertScoredDesc, SortedDesc]
    exact List.pairwise_singleton _ _
  | cons y ys ih =>
    rcases List.pairwise_cons.mp h with ⟨hy, hys⟩
    by_cases hgt : x.Score > y.Score
    · simp only [insertScoredDesc, if_pos hgt]
      refine List.pairwise_cons.mpr ⟨?_, h⟩
      intro z hz
      rcases List.mem_cons.mp hz with rfl | hz'
      · exact le_of_lt hgt
      · exact le_trans (hy z hz') (le_of_lt hgt)
    · simp only [insertScoredDesc, if_neg hgt]
      refine List.pairwise_cons.mpr ⟨?_, ih hys⟩
      intro z hz
      rcases List.mem_cons.mp ((insertScoredDesc_perm x ys).mem_iff.mp hz) with rfl | h2
      · exact not_lt.mp hgt
      · exact hy z h2

theorem sortScoredDesc_go_perm (l acc : List SearchResult) :
    List.Perm (l.foldl (fun acc x => insertScoredDesc x acc) acc) (acc ++ l) := by
  induction l generalizing acc with
  | nil => simp
  | cons x t ih =>
    simp only [List.foldl_cons]
    refine List.Perm.trans (ih (insertScoredDesc x acc)) ?_
    refine List.Perm.trans (List.Perm.append_right t (insertScoredDesc_perm x acc)) ?_
    exact List.perm_middle.symm

theorem sortScoredDesc_perm (l : List SearchResult) :
    List.Perm (sortScoredDesc l) l := by
  simpa using sortScoredDesc_go_perm l []

theorem sortScoredDesc_go_sorted (l acc : List SearchResult)
    (h : SortedDesc acc) :
    SortedDesc (l.foldl (fun acc x => insertScoredDesc x acc) acc) := by
  induction l generalizing acc with
  | nil => exact h
  | cons x t ih =>
    simp only [List.foldl_cons]
    exact ih _ (sortedDesc_insertScoredDesc x acc h)

theorem sortScoredDesc_sorted (l : List SearchResult) :
    SortedDesc (sortScoredDesc l) :=
  sortScoredDesc_go_sorted l [] List.Pairwise.nil

/-- A document none of whose term frequencies match the query scores zero:
the scoring loop skips every query term. -/
theorem scoreDoc_go_eq_of_no_shared (log : ℚ → ℚ) (idx : BM25Index)
    (qts : List String) (doc : Bm25Doc)
    (h : ∀ t ∈ qts, tfGet doc.tf t = 0) (acc : ℚ) :
    qts.foldl (fun score term =>
      let tf : ℚ := (tfGet doc.tf term : ℚ)
      if tf = 0 then score
      else
        let dfVal : ℚ := ((alookup idx.df term).getD 0 : ℚ)
        let n : ℚ := (idx.docs.length : ℚ)
        let idf := log ((n - dfVal + 1 / 2) / (dfVal + 1 / 2) + 1)
        let num := tf * (idx.k1 + 1)
        let den := tf + idx.k1 *
          (1 - idx.b + idx.b * (doc.length : ℚ) / idx.avgLen)
        score + idf * (num / den)) acc = acc := by
  induction qts generalizing acc with
  | nil => rfl
  | cons t ts ih =>
    have ht : tfGet doc.tf t = 0 := h t (List.mem_cons_self _ _)
    simp only [List.foldl_cons, ht, Nat.cast_zero, if_pos rfl]
    exact ih (fun u hu => h u (List.mem_cons_of_mem _ hu)) acc

theorem scoreDoc_eq_zero_of_no_shared (log : ℚ → ℚ) (idx : BM25Index)
    (qts : List String) (doc : Bm25Doc)
    (h : ∀ t ∈ qts, tfGet doc.tf t = 0) :
    scoreDoc log idx qts doc = 0 :=
  scoreDoc_go_eq_of_no_shared log idx qts doc h 0

theorem search_eq_nil_of_cond (log : ℚ → ℚ) (idx : BM25Index) (q : String)
    (k : Int) (h : (tokenize q).length = 0 ∨ k ≤ 0) :
    BM25Index.Search log idx q k = [] := by
  simp only [BM25Index.Search]
  rw [if_pos h]

theorem search_eq_nil_of_empty (log : ℚ → ℚ) (idx : BM25Index) (q : String)
    (k : Int) (h1 : ¬((tokenize q).length = 0 ∨ k ≤ 0))
    (h2 : idx.docs.length = 0) : BM25Index.Search log idx q k = [] := by
  simp only [BM25Index.Search]
  rw [if_neg h1, if_pos h2]

theorem search_eq_take (log : ℚ → ℚ) (idx : BM25Index) (q : String)
    (k : Int) (h1 : ¬((tokenize q).length = 0 ∨ k ≤ 0))
    (h2 : ¬idx.docs.length = 0) :
    BM25Index.Search log idx q k =
      (sortScoredDesc (searchResults log idx (tokenize q))).take k.toNat := by
  simp only [BM25Index.Search]
  rw [if_neg h1, if_neg h2]

/-- Membership in the candidate list names a positively scored document. -/
theorem mem_searchResults (log : ℚ → ℚ) (idx : BM25Index)
    (qts : List String) (r : SearchResult)
    (hr : r ∈ searchResults log idx qts) :
    ∃ p ∈ idx.docs, p.2.id = r.ID ∧
      r.Score = scoreDoc log idx qts p.2 ∧ 0 < r.Score := by
  rcases List.mem_filterMap.mp hr with ⟨p, hp, hcond⟩
  by_cases hpos : 0 < scoreDoc log idx qts p.2
  · simp only [if_pos hpos, Option.some.injEq] at hcond
    subst hcond
    exact ⟨p, hp, rfl, rfl, hpos⟩
  · simp only [if_neg hpos] at hcond
    cases hcond

/-- Any result returned by `Search` is a positively scored document of the
index, carrying that document's id and score. -/
theorem search_mem_results (log : ℚ → ℚ) (idx : BM25Index) (q : String)
    (k : Int) (r : SearchResult) (hr : r ∈ BM25Index.Search log idx q k) :
    ∃ p ∈ idx.docs, p.2.id = r.ID ∧
      r.Score = scoreDoc log idx (tokenize q) p.2 ∧ 0 < r.Score := by
  by_cases h1 : (tokenize q).length = 0 ∨ k ≤ 0
  · rw [search_eq_nil_of_cond log idx q k h1] at hr
    cases hr
  · by_cases h2 : idx.docs.length = 0
    · rw [search_eq_nil_of_empty log idx q k h1 h2] at hr
      cases hr
    · rw [search_eq_take log idx q k h1 h2] at hr
      exact mem_searchResults log idx (tokenize q) r
        ((sortScoredDesc_perm _).mem_iff.mp (List.mem_of_mem_take hr))

/-- C6: `Search(query, k)` returns at most k results sorted by score
descending; it returns the empty result when the query tokenizes to no
tokens or k ≤ 0; and every returned document shares at least one term with
the query (zero-shared-term documents are excluded, not scored as zero). -/
theorem c6_search_topk_contract (log : ℚ → ℚ) (idx : BM25Index)
    (q : String) (k : Int) :
    (tokenize q = [] ∨ k ≤ 0 → BM25Index.Search log idx q k = []) ∧
    (BM25Index.Search log idx q k).length ≤ k.toNat ∧
    List.Pairwise (fun a b => b.Score ≤ a.Score)
      (BM25Index.Search log idx q k) ∧
    ∀ r ∈ BM25Index.Search log idx q k,
      ∃ p ∈ idx.docs, p.2.id = r.ID ∧ ∃ t ∈ tokenize q, tfGet p.2.tf t ≠ 0 := by
  refine ⟨?_, ?_, ?_, ?_⟩
  · intro h
    have h' : (tokenize q).length = 0 ∨ k ≤ 0 := by
      rcases h with h | h
      · left; rw [h]; rfl
      · right; exact h
    exact search_eq_nil_of_cond log idx q k h'
  · by_cases h1 : (tokenize q).length = 0 ∨ k ≤ 0
    · rw [search_eq_nil_of_cond log idx q k h1]; exact Nat.zero_le _
    · by_cases h2 : idx.docs.length = 0
      · rw [search_eq_nil_of_empty log idx q k h1 h2]; exact Nat.zero_le _
      · rw [search_eq_take log idx q k h1 h2, List.length_take]
        exact min_le_left _ _
  · by_cases h1 : (tokenize q).length = 0 ∨ k ≤ 0
    · rw [search_eq_nil_of_cond log idx q k h1]; exact List.Pairwise.nil
    · by_cases h2 : idx.docs.length = 0
      · rw [search_eq_nil_of_empty log idx q k h1 h2]; exact List.Pairwise.nil
      · rw [search_eq_take log idx q k h1 h2]
        exact (sortScoredDesc_sorted _).sublist (List.take_sublist _ _)
  · intro r hr
    rcases search_mem_results log idx q k r hr with ⟨p, hp, hid, hscore, hpos⟩
    refine ⟨p, hp, hid, ?_⟩
    by_contra hall
    push_neg at hall
    rw [hscore, scoreDoc_eq_zero_of_no_shared log idx _ _ hall] at hpos
    exact lt_irrefl 0 hpos

/-- Concrete instantiation of the C6 search contract on the two-document
example corpus. -/
theorem c6_search_topk_contract_witness :
    (tokenize "t" = [] ∨ (2 : Int) ≤ 0 →
      BM25Index.Search linLog exampleIdx "t" 2 = []) ∧
    (BM25Index.Search linLog exampleIdx "t" 2).length ≤ (2 : Int).toNat ∧
    List.Pairwise (fun a b => b.Score ≤ a.Score)
      (BM25Index.Search linLog exampleIdx "t" 2) ∧
    ∀ r ∈ BM25Index.Search linLog exampleIdx "t" 2,
      ∃ p ∈ exampleIdx.docs, p.2.id = r.ID ∧
        ∃ t ∈ tokenize "t", tfGet p.2.tf t ≠ 0 :=
  c6_search_topk_contract linLog exampleIdx "t" 2

/-- Re-indexing an existing id equals removing the old document first: both
paths subtract the stale term contributions once and land the fresh
document in the same canonical position. -/
theorem index_after_remove (idx : BM25Index) (id text : String)
    (tags : List String) (old : Bm25Doc) (hs : keysSorted idx.docs = true)
    (hold : alookup idx.docs id = some old) :
    (idx.Remove id).Index id text tags = idx.Index id text tags := by
  have hnone : alookup (aerase id idx.docs) id = none :=
    alookup_aerase_self id idx.docs hs
  simp only [BM25Index.Remove, hold, BM25Index.Index, hnone]
  rw [ainsert_aerase _ _ idx.docs hs]

/-- C8: re-indexing is an atomic replace: for an index in which `id` is
already present, `Index(id, text, tags)` produces exactly the state of
`Remove(id)` followed by `Index(id, text, tags)` — document table,
document-frequency table and average length all agree, hence every Search
result agrees as well. -/
theorem c8_reindex_replaces (idx : BM25Index) (id text : String)
    (tags : List String) (old : Bm25Doc) (hs : keysSorted idx.docs = true)
    (hold : alookup idx.docs id = some old) :
    idx.Index id text tags = (idx.Remove id).Index id text tags ∧
    ∀ (log : ℚ → ℚ) (q : String) (k : Int),
      BM25Index.Search log (idx.Index id text tags) q k =
        BM25Index.Search log ((idx.Remove id).Index id text tags) q k := by
  have h := index_after_remove idx id text tags old hs hold
  exact ⟨h.symm, fun log q k => by rw [h]⟩

/-- Concrete instantiation of C8: re-indexing "d1" in the example corpus. -/
theorem c8_reindex_replaces_witness :
    keysSorted exampleIdx.docs = true ∧
    alookup exampleIdx.docs "d1" =
      some { id := "d1", tokens := ["t", "t"], tf := [("t", 2)], length := 2 } ∧
    exampleIdx.Index "d1" "u v" ["w"] =
      (exampleIdx.Remove "d1").Index "d1" "u v" ["w"] :=
  ⟨by decide, by decide,
    (c8_reindex_replaces exampleIdx "d1" "u v" ["w"]
      { id := "d1", tokens := ["t", "t"], tf := [("t", 2)], length := 2 }
      (by decide) (by decide)).1⟩

/-! ## Document-frequency bookkeeping lemmas -/

theorem alookup_mem {β : Type} {l : List (String × β)} {k : String} {v : β}
    (h : alookup l k = some v) : (k, v) ∈ l := by
  induction l with
  | nil => cases h
  | cons p t ih =>
    rcases p with ⟨k', v'⟩
    by_cases hk : k = k'
    · subst hk
      simp only [alookup, if_true, eq_self_iff_true] at h
      have hv := Option.some.inj h
      subst hv
      exact List.mem_cons_self _ _
    · simp only [alookup, if_neg hk] at h
      exact List.mem_cons_of_mem _ (ih h)

theorem aerase_eq_of_none {β : Type} {l : List (String × β)} {k : String}
    (h : alookup l k = none) : aerase k l = l := by
  induction l with
  | nil => rfl
  | cons p t ih =>
    rcases p with ⟨k', v'⟩
    by_cases hk : k = k'
    · simp only [alookup, if_pos hk] at h
      cases h
    · simp only [alookup, if_neg hk] at h
      simp only [aerase, if_neg hk]
      rw [ih h]

/-- An association list with an entry for `k` is, up to permutation, that
entry prepended to the erasure. -/
theorem perm_cons_aerase {β : Type} {l : List (String × β)} {k : String}
    {v : β} (h : alookup l k = some v) :
    List.Perm l ((k, v) :: aerase k l) := by
  induction l with
  | nil => cases h
  | cons p t ih =>
    rcases p with ⟨k', v'⟩
    by_cases hk : k = k'
    · subst hk
      simp only [alookup, if_true, eq_self_iff_true] at h
      have hv := Option.some.inj h
      subst hv
      simp only [aerase, if_pos rfl]
      exact List.Perm.refl _
    · have hk' : ¬(k = k') := hk
      simp only [alookup, if_neg hk'] at h
      simp only [aerase, if_neg hk']
      exact List.Perm.trans (List.Perm.cons _ (ih h)) (List.Perm.swap _ _ _)

/-- An upsert is, up to permutation, the new entry prepended to the
erasure of the key (canonical maps). -/
theorem ainsert_perm_cons_aerase {β : Type} (k : String) (v : β)
    (l : List (String × β)) (hs : keysSorted l = true) :
    List.Perm (ainsert k v l) ((k, v) :: aerase k l) := by
  induction l with
  | nil => exact List.Perm.refl _
  | cons p t ih =>
    rcases p with ⟨k', v'⟩
    have ht := keysSorted_cons k' v' t hs
    have hhd := keysSorted_head_lt k' v' t hs
    by_cases hk : k = k'
    · subst hk
      simp only [ainsert, if_pos rfl, aerase, if_pos rfl]
      exact List.Perm.refl _
    · by_cases hlt : strLt k k' = true
      · have he : aerase k t = t :=
          aerase_eq_of_forall_lt k t fun q hq => strLt_trans hlt (hhd q hq)
        simp only [ainsert, if_neg hk, if_pos hlt, aerase, if_neg hk, he]
        exact List.Perm.refl _
      · simp only [ainsert, if_neg hk, if_neg hlt, aerase, if_neg hk]
        exact List.Perm.trans (List.Perm.cons _ (ih ht)) (List.Perm.swap _ _ _)

theorem countDocs_perm {docs docs' : List (String × Bm25Doc)}
    (h : List.Perm docs docs') (t : String) :
    countDocs docs t = countDocs docs' t := by
  unfold countDocs
  rw [(h.filter _).length_eq]

theorem countDocs_cons (i : String) (d : Bm25Doc)
    (docs : List (String × Bm25Doc)) (t : String) :
    countDocs ((i, d) :: docs) t =
      countDocs docs t + (if (alookup d.tf t).isSome then 1 else 0) := by
  by_cases h : (alookup d.tf t).isSome
  · simp [countDocs, List.filter_cons, h]
  · simp [countDocs, List.filter_cons, h]

/-! ### dfIncr / dfDecr -/

theorem keysSorted_dfIncr (m : List (String × Int)) (t : String)
    (hs : keysSorted m = true) : keysSorted (dfIncr m t) = true := by
  unfold dfIncr
  cases alookup m t <;> exact keysSorted_ainsert _ _ _ hs

theorem keysSorted_dfDecr (m : List (String × Int)) (t : String)
    (hs : keysSorted m = true) : keysSorted (dfDecr m t) = true := by
  unfold dfDecr
  cases h : alookup m t with
  | none => exact hs
  | some c =>
    by_cases hc : c - 1 ≤ 0
    · simp only [if_pos hc]
      exact keysSorted_aerase _ _ hs
    · simp only [if_neg hc]
      exact keysSorted_ainsert _ _ _ hs

theorem pos_dfIncr (m : List (String × Int)) (t : String)
    (hp : ∀ q ∈ m, 0 < q.2) : ∀ q ∈ dfIncr m t, 0 < q.2 := by
  unfold dfIncr
  cases h : alookup m t with
  | none =>
    intro q hq
    rcases ainsert_mem_cases _ _ _ _ hq with h1 | h2
    · rw [h1]; exact Int.zero_lt_one
    · exact hp q h2
  | some c =>
    intro q hq
    rcases ainsert_mem_cases _ _ _ _ hq with h1 | h2
    · rw [h1]
      have := hp (t, c) (alookup_mem h)
      simp only at this ⊢
      omega
    · exact hp q h2

theorem pos_dfDecr (m : List (String × Int)) (t : String)
    (hp : ∀ q ∈ m, 0 < q.2) : ∀ q ∈ dfDecr m t, 0 < q.2 := by
  unfold dfDecr
  cases h : alookup m t with
  | none => exact hp
  | some c =>
    by_cases hc : c - 1 ≤ 0
    · simp only [if_pos hc]
      intro q hq
      exact hp q (aerase_subset _ _ q hq)
    · simp only [if_neg hc]
      intro q hq
      rcases ainsert_mem_cases _ _ _ _ hq with h1 | h2
      · rw [h1]; simp only; omega
      · exact hp q h2

theorem dfGetZ_dfIncr (m : List (String × Int)) (t u : String) :
    dfGetZ (dfIncr m t) u = dfGetZ m u + (if u = t then 1 else 0) := by
  unfold dfIncr dfGetZ
  by_cases hu : u = t
  · subst hu
    cases h : alookup m u with
    | none => simp [alookup_ainsert_self, h]
    | some c => simp [alookup_ainsert_self, h]
  · cases h : alookup m t <;>
      simp [alookup_ainsert_ne t u _ _ hu, hu]

theorem dfGetZ_dfDecr (m : List (String × Int)) (t u : String)
    (hs : keysSorted m = true) (hp : ∀ q ∈ m, 0 < q.2) :
    dfGetZ (dfDecr m t) u =
      if u = t then max (dfGetZ m u - 1) 0 else dfGetZ m u := by
  unfold dfDecr dfGetZ
  cases h : alookup m t with
  | none =>
    by_cases hu : u = t
    · subst hu
      simp [h]
    · simp [hu]
  | some c =>
    have hcpos : 0 < c := hp (t, c) (alookup_mem h)
    by_cases hc : c - 1 ≤ 0
    · have hc1 : c = 1 := by omega
      simp only [if_pos hc]
      by_cases hu : u = t
      · subst hu
        rw [alookup_aerase_self u m hs, if_pos rfl, h]
        simp [hc1]
      · rw [alookup_aerase_ne t u m hu, if_neg hu]
    · simp only [if_neg hc]
      by_cases hu : u = t
      · subst hu
        rw [alookup_ainsert_self, if_pos rfl, h]
        simp only [Option.getD_some]
        omega
      · rw [alookup_ainsert_ne t u _ _ hu, if_neg hu]

/-! ### dfSubtract / dfAdd over a whole tf table -/

theorem dfSubtract_spec (tf : List (String × Nat)) (m : List (String × Int))
    (hstf : keysSorted tf = true) (hs : keysSorted m = true)
    (hp : ∀ q ∈ m, 0 < q.2) :
    keysSorted (dfSubtract m tf) = true ∧
    (∀ q ∈ dfSubtract m tf, 0 < q.2) ∧
    ∀ u, dfGetZ (dfSubtract m tf) u =
      if (alookup tf u).isSome then max (dfGetZ m u - 1) 0 else dfGetZ m u := by
  induction tf generalizing m with
  | nil =>
    refine ⟨hs, hp, ?_⟩
    intro u
    simp [alookup, dfSubtract]
  | cons p rest ih =>
    rcases p with ⟨t₀, c₀⟩
    have hrest := keysSorted_cons t₀ c₀ rest hstf
    have hhd := keysSorted_head_lt t₀ c₀ rest hstf
    have hstep : dfSubtract m ((t₀, c₀) :: rest) = dfSubtract (dfDecr m t₀) rest := rfl
    rcases ih (dfDecr m t₀) hrest (keysSorted_dfDecr m t₀ hs) (pos_dfDecr m t₀ hp)
      with ⟨hs', hp', hval⟩
    rw [hstep]
    refine ⟨hs', hp', ?_⟩
    intro u
    rw [hval u]
    by_cases hu : u = t₀
    · subst hu
      have hnone : alookup rest u = none :=
        alookup_eq_none_of_head_lt u rest hhd
      rw [hnone]
      simp only [alookup, if_pos rfl, Option.isSome_some, if_true,
        Option.isSome_none, Bool.false_eq_true, if_false]
      rw [dfGetZ_dfDecr m u u hs hp, if_pos rfl]
    · simp only [alookup, if_neg hu]
      rw [dfGetZ_dfDecr m t₀ u hs hp, if_neg hu]

theorem dfAdd_spec (tf : List (String × Nat)) (m : List (String × Int))
    (hstf : keysSorted tf = true) (hs : keysSorted m = true)
    (hp : ∀ q ∈ m, 0 < q.2) :
    keysSorted (dfAdd m tf) = true ∧
    (∀ q ∈ dfAdd m tf, 0 < q.2) ∧
    ∀ u, dfGetZ (dfAdd m tf) u =
      dfGetZ m u + (if (alookup tf u).isSome then 1 else 0) := by
  induction tf generalizing m with
  | nil =>
    refine ⟨hs, hp, ?_⟩
    intro u
    simp [alookup, dfAdd]
  | cons p rest ih =>
    rcases p with ⟨t₀, c₀⟩
    have hrest := keysSorted_cons t₀ c₀ rest hstf
    have hhd := keysSorted_head_lt t₀ c₀ rest hstf
    have hstep : dfAdd m ((t₀, c₀) :: rest) = dfAdd (dfIncr m t₀) rest := rfl
    rcases ih (dfIncr m t₀) hrest (keysSorted_dfIncr m t₀ hs) (pos_dfIncr m t₀ hp)
      with ⟨hs', hp', hval⟩
    rw [hstep]
    refine ⟨hs', hp', ?_⟩
    intro u
    rw [hval u]
    by_cases hu : u = t₀
    · subst hu
      have hnone : alookup rest u = none :=
        alookup_eq_none_of_head_lt u rest hhd
      rw [hnone]
      simp only [alookup, if_pos rfl, Option.isSome_some, if_true,
        Option.isSome_none, Bool.false_eq_true, if_false]
      rw [dfGetZ_dfIncr m u u, if_pos rfl]
      omega
    · simp only [alookup, if_neg hu]
      rw [dfGetZ_dfIncr m t₀ u, if_neg hu]
      omega

/-! ### Sortedness of built term-frequency tables -/

theorem keysSorted_bumpCount (m : List (String × Nat)) (t : String)
    (hs : keysSorted m = true) : keysSorted (bumpCount m t) = true := by
  unfold bumpCount
  cases alookup m t <;> exact keysSorted_ainsert _ _ _ hs

theorem keysSorted_termFrequencies_go (tokens : List String)
    (acc : List (String × Nat)) (hs : keysSorted acc = true) :
    keysSorted (tokens.foldl bumpCount acc) = true := by
  induction tokens generalizing acc with
  | nil => exact hs
  | cons t ts ih =>
    simp only [List.foldl_cons]
    exact ih _ (keysSorted_bumpCount acc t hs)

theorem keysSorted_termFrequencies (tokens : List String) :
    keysSorted (termFrequencies tokens) = true :=
  keysSorted_termFrequencies_go tokens [] rfl

/-! ### Equation lemmas for Index and Remove -/

theorem Index_eq_some (idx : BM25Index) (id text : String)
    (tags : List String) (old : Bm25Doc)
    (h : alookup idx.docs id = some old) :
    idx.Index id text tags =
      { idx with
        docs := ainsert id (mkDoc id text tags) idx.docs
        df := dfAdd (dfSubtract idx.df old.tf) (mkDoc id text tags).tf
        avgLen := recomputeAvgLen (ainsert id (mkDoc id text tags) idx.docs) } := by
  simp only [BM25Index.Index, h]

theorem Index_eq_none (idx : BM25Index) (id text : String)
    (tags : List String) (h : alookup idx.docs id = none) :
    idx.Index id text tags =
      { idx with
        docs := ainsert id (mkDoc id text tags) idx.docs
        df := dfAdd idx.df (mkDoc id text tags).tf
        avgLen := recomputeAvgLen (ainsert id (mkDoc id text tags) idx.docs) } := by
  simp only [BM25Index.Index, h]

theorem Remove_eq_some (idx : BM25Index) (id : String) (old : Bm25Doc)
    (h : alookup idx.docs id = some old) :
    idx.Remove id =
      { idx with
        docs := aerase id idx.docs
        df := dfSubtract idx.df old.tf
        avgLen := recomputeAvgLen (aerase id idx.docs) } := by
  simp only [BM25Index.Remove, h]

theorem Remove_eq_none (idx : BM25Index) (id : String)
    (h : alookup idx.docs id = none) : idx.Remove id = idx := by
  simp only [BM25Index.Remove, h]

theorem countDocs_nonneg (docs : List (String × Bm25Doc)) (t : String) :
    0 ≤ countDocs docs t :=
  Int.natCast_nonneg _

/-! ### The invariant is established and preserved -/

theorem bm25Inv_new : Bm25Inv NewBM25Index := by
  refine ⟨rfl, rfl, ?_, ?_, ?_, rfl⟩
  · intro p hp; cases hp
  · intro q hq; cases hq
  · intro t; simp [dfGetZ, countDocs, alookup, NewBM25Index]

theorem bm25Inv_index (idx : BM25Index) (id text : String)
    (tags : List String) (h : Bm25Inv idx) :
    Bm25Inv (idx.Index id text tags) := by
  obtain ⟨hds, hdfs, htf, hpos, hcnt, havg⟩ := h
  have hdocsorted := keysSorted_ainsert id (mkDoc id text tags) idx.docs hds
  have hdoctf : ∀ p ∈ ainsert id (mkDoc id text tags) idx.docs,
      keysSorted p.2.tf = true := by
    intro p hp
    rcases ainsert_mem_cases _ _ _ _ hp with h1 | h2
    · rw [h1]
      exact keysSorted_termFrequencies _
    · exact htf p h2
  have hperm := ainsert_perm_cons_aerase id (mkDoc id text tags) idx.docs hds
  cases hdoc : alookup idx.docs id with
  | none =>
    rw [Index_eq_none idx id text tags hdoc]
    rcases dfAdd_spec (mkDoc id text tags).tf idx.df
      (keysSorted_termFrequencies _) hdfs hpos with ⟨hs', hp', hval⟩
    refine ⟨hdocsorted, hs', hdoctf, hp', ?_, rfl⟩
    intro t
    rw [countDocs_perm hperm t, aerase_eq_of_none hdoc, countDocs_cons,
      hval t, hcnt t]
  | some old =>
    rw [Index_eq_some idx id text tags old hdoc]
    have holdtf : keysSorted old.tf = true := htf (id, old) (alookup_mem hdoc)
    rcases dfSubtract_spec old.tf idx.df holdtf hdfs hpos with ⟨hs1, hp1, hval1⟩
    rcases dfAdd_spec (mkDoc id text tags).tf (dfSubtract idx.df old.tf)
      (keysSorted_termFrequencies _) hs1 hp1 with ⟨hs2, hp2, hval2⟩
    refine ⟨hdocsorted, hs2, hdoctf, hp2, ?_, rfl⟩
    intro t
    have hsplit := countDocs_perm (perm_cons_aerase hdoc) t
    rw [countDocs_cons] at hsplit
    have hge := countDocs_nonneg (aerase id idx.docs) t
    rw [countDocs_perm hperm t, countDocs_cons, hval2 t, hval1 t, hcnt t, hsplit]
    by_cases hot : (alookup old.tf t).isSome
    · simp only [hot, if_true]
      omega
    · simp only [hot, Bool.false_eq_true, if_false]
      omega

theorem bm25Inv_remove (idx : BM25Index) (id : String) (h : Bm25Inv idx) :
    Bm25Inv (idx.Remove id) := by
  obtain ⟨hds, hdfs, htf, hpos, hcnt, havg⟩ := h
  cases hdoc : alookup idx.docs id with
  | none =>
    rw [Remove_eq_none idx id hdoc]
    exact ⟨hds, hdfs, htf, hpos, hcnt, havg⟩
  | some old =>
    rw [Remove_eq_some idx id old hdoc]
    have holdtf : keysSorted old.tf = true := htf (id, old) (alookup_mem hdoc)
    rcases dfSubtract_spec old.tf idx.df holdtf hdfs hpos with ⟨hs1, hp1, hval1⟩
    refine ⟨keysSorted_aerase id idx.docs hds, hs1, ?_, hp1, ?_, rfl⟩
    · intro p hp
      exact htf p (aerase_subset id idx.docs p hp)
    · intro t
      have hsplit := countDocs_perm (perm_cons_aerase hdoc) t
      rw [countDocs_cons] at hsplit
      have hge := countDocs_nonneg (aerase id idx.docs) t
      rw [hval1 t, hcnt t, hsplit]
      by_cases hot : (alookup old.tf t).isSome
      · simp only [hot, if_true]
        omega
      · simp only [hot, Bool.false_eq_true, if_false]
        omega

/-! ### Rebuild recomputes exactly the maintained statistics -/

theorem rebuild_df_spec (docs : List (String × Bm25Doc))
    (m : List (String × Int)) (htf : ∀ p ∈ docs, keysSorted p.2.tf = true)
    (hs : keysSorted m = true) (hp : ∀ q ∈ m, 0 < q.2) :
    keysSorted (docs.foldl (fun m p => dfAdd m p.2.tf) m) = true ∧
    (∀ q ∈ docs.foldl (fun m p => dfAdd m p.2.tf) m, 0 < q.2) ∧
    ∀ t, dfGetZ (docs.foldl (fun m p => dfAdd m p.2.tf) m) t =
      dfGetZ m t + countDocs docs t := by
  induction docs generalizing m with
  | nil =>
    refine ⟨hs, hp, ?_⟩
    intro t
    simp [countDocs]
  | cons p rest ih =>
    rcases p with ⟨i, d⟩
    have hdtf : keysSorted d.tf = true := htf (i, d) (List.mem_cons_self _ _)
    rcases dfAdd_spec d.tf m hdtf hs hp with ⟨hs1, hp1, hval1⟩
    rcases ih (dfAdd m d.tf) (fun q hq => htf q (List.mem_cons_of_mem _ hq))
      hs1 hp1 with ⟨hs2, hp2, hval2⟩
    simp only [List.foldl_cons]
    refine ⟨hs2, hp2, ?_⟩
    intro t
    rw [hval2 t, hval1 t, countDocs_cons]
    omega

/-- Positive-valued maps with equal zero-defaulted reads have equal
optional reads. -/
theorem alookup_eq_of_dfGetZ_eq (m m' : List (String × Int)) (t : String)
    (hp : ∀ q ∈ m, 0 < q.2) (hp' : ∀ q ∈ m', 0 < q.2)
    (h : dfGetZ m t = dfGetZ m' t) : alookup m t = alookup m' t := by
  unfold dfGetZ at h
  cases h1 : alookup m t with
  | none =>
    cases h2 : alookup m' t with
    | none => rfl
    | some c =>
      have hc := hp' (t, c) (alookup_mem h2)
      rw [h1, h2] at h
      simp only [Option.getD_none, Option.getD_some] at h
      simp only at hc
      omega
  | some c =>
    cases h2 : alookup m' t with
    | none =>
      have hc := hp (t, c) (alookup_mem h1)
      rw [h1, h2] at h
      simp only [Option.getD_none, Option.getD_some] at h
      simp only at hc
      omega
    | some c' =>
      rw [h1, h2] at h
      simp only [Option.getD_some] at h
      rw [h]

/-- On any state satisfying the invariant, `Rebuild` recomputes exactly the
tables the state already holds. -/
theorem rebuild_noop (idx : BM25Index) (h : Bm25Inv idx) :
    idx.Rebuild = idx := by
  obtain ⟨hds, hdfs, htf, hpos, hcnt, havg⟩ := h
  rcases rebuild_df_spec idx.docs [] htf rfl (fun q hq => by cases hq)
    with ⟨hs', hp', hval⟩
  have hdf : idx.docs.foldl (fun m p => dfAdd m p.2.tf) [] = idx.df := by
    refine alookup_ext _ _ hs' hdfs ?_
    intro t
    refine alookup_eq_of_dfGetZ_eq _ _ t hp' hpos ?_
    rw [hval t, hcnt t]
    simp [dfGetZ, alookup]
  show { idx with
    df := idx.docs.foldl (fun m p => dfAdd m p.2.tf) []
    avgLen := recomputeAvgLen idx.docs } = idx
  rw [hdf, ← havg]

/-- The invariant holds in every state reachable from the fresh index. -/
theorem bm25Inv_applyOps (ops : List Bm25Op) (idx : BM25Index)
    (h : Bm25Inv idx) : Bm25Inv (applyBm25Ops idx ops) := by
  induction ops generalizing idx with
  | nil => exact h
  | cons op rest ih =>
    simp only [applyBm25Ops, List.foldl_cons]
    cases op with
    | ix id text tags => exact ih _ (bm25Inv_index idx id text tags h)
    | rm id => exact ih _ (bm25Inv_remove idx id h)

/-- C10: after any finite sequence of Index and Remove operations on a
fresh BM25 index, `Rebuild` is a no-op: the incrementally maintained
document-frequency table and average document length already equal the
batch-recomputed values, so `Rebuild` never alters any Search result. -/
theorem c10_rebuild_is_noop (ops : List Bm25Op) :
    (applyBm25Ops NewBM25Index ops).Rebuild = applyBm25Ops NewBM25Index ops ∧
    ∀ (log : ℚ → ℚ) (q : String) (k : Int),
      BM25Index.Search log ((applyBm25Ops NewBM25Index ops).Rebuild) q k =
        BM25Index.Search log (applyBm25Ops NewBM25Index ops) q k := by
  have h := rebuild_noop (applyBm25Ops NewBM25Index ops)
    (bm25Inv_applyOps ops NewBM25Index bm25Inv_new)
  exact ⟨h, fun log q k => by rw [h]⟩

/-! ## Ranking monotonicity support -/

theorem alookup_of_mem_sorted {β : Type} {l : List (String × β)}
    {k : String} {v : β} (hs : keysSorted l = true) (h : (k, v) ∈ l) :
    alookup l k = some v := by
  induction l with
  | nil => cases h
  | cons p t ih =>
    rcases p with ⟨k', v'⟩
    rcases List.mem_cons.mp h with h1 | h2
    · rw [Prod.mk.injEq] at h1
      rw [h1.1, h1.2]
      simp [alookup]
    · have hk : strLt k' k = true :=
        keysSorted_head_lt k' v' t hs (k, v) h2
      have hne : ¬(k = k') := fun he => ne_of_strLt hk he.symm
      simp only [alookup, if_neg hne]
      exact ih (keysSorted_cons k' v' t hs) h2

theorem foldl_len_mono (docs : List (String × Bm25Doc)) (a b : Nat)
    (h : a ≤ b) :
    docs.foldl (fun acc q => acc + q.2.length) a ≤
      docs.foldl (fun acc q => acc + q.2.length) b := by
  induction docs generalizing a b with
  | nil => exact h
  | cons p t ih =>
    simp only [List.foldl_cons]
    exact ih _ _ (Nat.add_le_add_right h _)

theorem length_le_totalLen (docs : List (String × Bm25Doc))
    (p : String × Bm25Doc) (hp : p ∈ docs) :
    p.2.length ≤ docs.foldl (fun acc q => acc + q.2.length) 0 := by
  induction docs with
  | nil => cases hp
  | cons q t ih =>
    simp only [List.foldl_cons]
    rcases List.mem_cons.mp hp with h1 | h2
    · subst h1
      calc p.2.length = 0 + p.2.length := (Nat.zero_add _).symm
        _ ≤ t.foldl (fun acc q => acc + q.2.length) (0 + p.2.length) := by
              have : ∀ (u : List (String × Bm25Doc)) (a : Nat),
                  a ≤ u.foldl (fun acc q => acc + q.2.length) a := by
                intro u
                induction u with
                | nil => intro a; exact le_refl a
                | cons r s ihs =>
                  intro a
                  simp only [List.foldl_cons]
                  exact le_trans (Nat.le_add_right a _) (ihs _)
              exact this t _
    · exact le_trans (ih h2) (foldl_len_mono t 0 _ (Nat.zero_le _))

/-- A corpus containing a document with at least one token has positive
recomputed average length. -/
theorem recomputeAvgLen_pos (docs : List (String × Bm25Doc))
    (p : String × Bm25Doc) (hp : p ∈ docs) (hl : 0 < p.2.length) :
    0 < recomputeAvgLen docs := by
  have hne : docs.length ≠ 0 := by
    intro h
    rw [List.length_eq_zero] at h
    subst h
    cases hp
  unfold recomputeAvgLen
  rw [if_neg hne]
  have htot : 0 < docs.foldl (fun acc q => acc + q.2.length) 0 :=
    lt_of_lt_of_le hl (length_le_totalLen docs p hp)
  have h1 : (0 : ℚ) < ((docs.foldl (fun acc q => acc + q.2.length) 0 : Nat) : ℚ) := by
    exact_mod_cast htot
  have h2 : (0 : ℚ) < (docs.length : ℚ) := by
    have : 0 < docs.length := Nat.pos_of_ne_zero hne
    exact_mod_cast this
  exact div_pos h1 h2

/-- The BM25 score against a one-token query, written out. -/
theorem scoreDoc_single (log : ℚ → ℚ) (idx : BM25Index) (T : String)
    (doc : Bm25Doc) :
    scoreDoc log idx [T] doc =
      if (tfGet doc.tf T : ℚ) = 0 then 0
      else
        log (((idx.docs.length : ℚ) - ((alookup idx.df T).getD 0 : ℚ) + 1 / 2) /
            (((alookup idx.df T).getD 0 : ℚ) + 1 / 2) + 1) *
          ((tfGet doc.tf T : ℚ) * (idx.k1 + 1) /
            ((tfGet doc.tf T : ℚ) +
              idx.k1 * (1 - idx.b + idx.b * (doc.length : ℚ) / idx.avgLen))) := by
  by_cases h : tfGet doc.tf T = 0
  · simp [scoreDoc, h]
  · simp only [scoreDoc, List.foldl_cons, List.foldl_nil]
    rw [if_neg (by exact_mod_cast h), if_neg (by exact_mod_cast h), zero_add]

/-- Strict monotonicity of the tf-saturation factor between tf = 1 and
tf = 2, for any positive normalization constant. -/
theorem sat_one_lt_sat_two (k1 K : ℚ) (hk1 : 0 < k1) (hK : 0 < K) :
    1 * (k1 + 1) / (1 + K) < 2 * (k1 + 1) / (2 + K) := by
  rw [div_lt_div_iff₀ (by linarith) (by linarith)]
  nlinarith

theorem idf_arg_gt_one (n df : ℚ) (h0 : 0 ≤ df) (h1 : df ≤ n) :
    1 < (n - df + 1 / 2) / (df + 1 / 2) + 1 := by
  have hd : (0 : ℚ) < df + 1 / 2 := by linarith
  have hn : (0 : ℚ) < n - df + 1 / 2 := by linarith
  have := div_pos hn hd
  linarith

/-- Every candidate entry carrying a stored document's id carries that
document's score (ids are unique in a coherent sorted corpus). -/
theorem searchResults_score_eq (log : ℚ → ℚ) (idx : BM25Index)
    (qts : List String) (hds : keysSorted idx.docs = true)
    (hid : ∀ p ∈ idx.docs, p.2.id = p.1) (key : String) (dX : Bm25Doc)
    (hX : alookup idx.docs key = some dX) (r : SearchResult)
    (hr : r ∈ searchResults log idx qts) (hrid : r.ID = dX.id) :
    r.Score = scoreDoc log idx qts dX := by
  rcases mem_searchResults log idx qts r hr with ⟨p, hp, hpid, hscore, _⟩
  have h1 : p.2.id = p.1 := hid p hp
  have h2 : dX.id = key := hid (key, dX) (alookup_mem hX)
  have h3 : p.1 = key := by rw [← h1, hpid, hrid, h2]
  have h4 : alookup idx.docs key = some p.2 := by
    rw [← h3]
    exact alookup_of_mem_sorted hds (by
      have : p = (p.1, p.2) := rfl
      rw [← this]
      exact hp)
  have h5 : p.2 = dX := by
    rw [h4] at hX
    exact Option.some.inj hX
  rw [hscore, h5]

/-- A positively scored stored document appears among the candidates. -/
theorem searchResults_mem_of (log : ℚ → ℚ) (idx : BM25Index)
    (qts : List String) (key : String) (dX : Bm25Doc)
    (hX : alookup idx.docs key = some dX)
    (hpos : 0 < scoreDoc log idx qts dX) :
    ({ ID := dX.id, Score := scoreDoc log idx qts dX } : SearchResult) ∈
      searchResults log idx qts := by
  refine List.mem_filterMap.mpr ⟨(key, dX), alookup_mem hX, ?_⟩
  simp only [if_pos hpos]

/-- The single-term score of a document with a known positive tf. -/
theorem scoreDoc_single_tf (log : ℚ → ℚ) (idx : BM25Index) (T : String)
    (doc : Bm25Doc) (tfv : Nat) (htf : tfGet doc.tf T = tfv)
    (h : tfv ≠ 0) :
    scoreDoc log idx [T] doc =
      log (((idx.docs.length : ℚ) - ((alookup idx.df T).getD 0 : ℚ) + 1 / 2) /
          (((alookup idx.df T).getD 0 : ℚ) + 1 / 2) + 1) *
        ((tfv : ℚ) * (idx.k1 + 1) /
          ((tfv : ℚ) +
            idx.k1 * (1 - idx.b + idx.b * (doc.length : ℚ) / idx.avgLen))) := by
  rw [scoreDoc_single, htf, if_neg (by exact_mod_cast h)]

/-- C7: in any well-formed corpus holding two equal-length documents, one
with tf(T) = 2 and one with tf(T) = 1, a search for the single term T ranks
the double-occurrence document strictly above the single-occurrence one:
wherever the single-occurrence document appears in the output, the
double-occurrence one appears strictly earlier, and for k covering the
corpus both appear. -/
theorem c7_bm25_tf_monotonic (log : ℚ → ℚ)
    (hlog : ∀ x : ℚ, 1 < x → 0 < log x) (idx : BM25Index)
    (hds : keysSorted idx.docs = true)
    (hid : ∀ p ∈ idx.docs, p.2.id = p.1)
    (hk1 : idx.k1 = 12 / 10) (hb : idx.b = 75 / 100)
    (havg : idx.avgLen = recomputeAvgLen idx.docs)
    (D S T q : String) (dD dS : Bm25Doc)
    (hD : alookup idx.docs D = some dD) (hS : alookup idx.docs S = some dS)
    (hq : tokenize q = [T])
    (htfD : tfGet dD.tf T = 2) (htfS : tfGet dS.tf T = 1)
    (hlen : dD.length = dS.length) (hposlen : 0 < dD.length)
    (hdf0 : 0 ≤ dfGetZ idx.df T)
    (hdfn : dfGetZ idx.df T ≤ (idx.docs.length : Int)) (k : Int) :
    (∀ (j : Nat) (hj : j < (BM25Index.Search log idx q k).length),
      ((BM25Index.Search log idx q k).get ⟨j, hj⟩).ID = dS.id →
      ∃ (i : Nat) (hi : i < (BM25Index.Search log idx q k).length),
        i < j ∧ ((BM25Index.Search log idx q k).get ⟨i, hi⟩).ID = dD.id) ∧
    ((idx.docs.length : Int) ≤ k →
      (∃ r ∈ BM25Index.Search log idx q k, r.ID = dD.id) ∧
      (∃ r ∈ BM25Index.Search log idx q k, r.ID = dS.id)) := by
  have hidD : dD.id = D := hid (D, dD) (alookup_mem hD)
  have hidS : dS.id = S := hid (S, dS) (alookup_mem hS)
  have hDS : D ≠ S := by
    intro he
    subst he
    rw [hS] at hD
    have hdd := Option.some.inj hD
    rw [← hdd] at htfD
    rw [htfS] at htfD
    omega
  have hmemDdocs : (D, dD) ∈ idx.docs := alookup_mem hD
  have havgpos : 0 < idx.avgLen := by
    rw [havg]
    exact recomputeAvgLen_pos idx.docs (D, dD) hmemDdocs hposlen
  simp only [dfGetZ] at hdf0 hdfn
  have hscoreD := scoreDoc_single_tf log idx T dD 2 htfD (by norm_num)
  have hscoreS := scoreDoc_single_tf log idx T dS 1 htfS (by norm_num)
  rw [← hlen] at hscoreS
  set K := idx.k1 * (1 - idx.b + idx.b * (dD.length : ℚ) / idx.avgLen)
    with hKdef
  set idf := log (((idx.docs.length : ℚ) - ((alookup idx.df T).getD 0 : ℚ) + 1 / 2) /
      (((alookup idx.df T).getD 0 : ℚ) + 1 / 2) + 1) with hidfdef
  have hKpos : 0 < K := by
    rw [hKdef, hk1, hb]
    have h1 : (0 : ℚ) ≤ 75 / 100 * (dD.length : ℚ) / idx.avgLen :=
      div_nonneg (mul_nonneg (by norm_num) (Nat.cast_nonneg _))
        (le_of_lt havgpos)
    linarith
  have hidfpos : 0 < idf := by
    rw [hidfdef]
    apply hlog
    apply idf_arg_gt_one
    · exact_mod_cast hdf0
    · exact_mod_cast hdfn
  have hlt : scoreDoc log idx [T] dS < scoreDoc log idx [T] dD := by
    rw [hscoreD, hscoreS]
    push_cast
    exact mul_lt_mul_of_pos_left
      (sat_one_lt_sat_two idx.k1 K (by rw [hk1]; norm_num) hKpos) hidfpos
  have hSpos : 0 < scoreDoc log idx [T] dS := by
    rw [hscoreS]
    apply mul_pos hidfpos
    apply div_pos
    · push_cast
      rw [hk1]
      norm_num
    · push_cast
      linarith
  have hDpos : 0 < scoreDoc log idx [T] dD := lt_trans hSpos hlt
  by_cases hk : k ≤ 0
  · have hout : BM25Index.Search log idx q k = [] :=
      search_eq_nil_of_cond log idx q k (Or.inr hk)
    constructor
    · intro j hj
      rw [hout] at hj
      simp at hj
    · intro hkk
      have hlen0 : 0 < idx.docs.length := by
        cases hdocs : idx.docs with
        | nil => rw [hdocs] at hmemDdocs; cases hmemDdocs
        | cons p t => simp [hdocs]
      omega
  · have hcond : ¬((tokenize q).length = 0 ∨ k ≤ 0) := by
      push_neg
      refine ⟨?_, by omega⟩
      rw [hq]
      simp
    have hne : ¬idx.docs.length = 0 := by
      intro he
      rw [List.length_eq_zero] at he
      rw [he] at hmemDdocs
      cases hmemDdocs
    have hout := search_eq_take log idx q k hcond hne
    have hsorted : SortedDesc (sortScoredDesc (searchResults log idx (tokenize q))) :=
      sortScoredDesc_sorted _
    have hpw := List.pairwise_iff_get.mp hsorted
    have hscore_anyD : ∀ r ∈ sortScoredDesc (searchResults log idx (tokenize q)),
        r.ID = dD.id → r.Score = scoreDoc log idx [T] dD := by
      intro r hr hrid
      have hr' : r ∈ searchResults log idx (tokenize q) :=
        (sortScoredDesc_perm _).mem_iff.mp hr
      rw [hq] at hr'
      exact searchResults_score_eq log idx [T] hds hid D dD hD r hr' hrid
    have hscore_anyS : ∀ r ∈ sortScoredDesc (searchResults log idx (tokenize q)),
        r.ID = dS.id → r.Score = scoreDoc log idx [T] dS := by
      intro r hr hrid
      have hr' : r ∈ searchResults log idx (tokenize q) :=
        (sortScoredDesc_perm _).mem_iff.mp hr
      rw [hq] at hr'
      exact searchResults_score_eq log idx [T] hds hid S dS hS r hr' hrid
    have hmemD : ({ ID := dD.id, Score := scoreDoc log idx [T] dD } : SearchResult) ∈
        sortScoredDesc (searchResults log idx (tokenize q)) := by
      apply (sortScoredDesc_perm _).mem_iff.mpr
      rw [hq]
      exact searchResults_mem_of log idx [T] D dD hD hDpos
    have hmemS : ({ ID := dS.id, Score := scoreDoc log idx [T] dS } : SearchResult) ∈
        sortScoredDesc (searchResults log idx (tokenize q)) := by
      apply (sortScoredDesc_perm _).mem_iff.mpr
      rw [hq]
      exact searchResults_mem_of log idx [T] S dS hS hSpos
    constructor
    · rw [hout]
      intro j hj hjid
      have hjf : j < (sortScoredDesc (searchResults log idx (tokenize q))).length := by
        have := hj
        rw [List.length_take] at this
        omega
      have hgetj : (((sortScoredDesc (searchResults log idx (tokenize q))).take k.toNat).get
          ⟨j, hj⟩) = (sortScoredDesc (searchResults log idx (tokenize q))).get ⟨j, hjf⟩ := by
        simp [List.getElem_take]
      have hjid' : ((sortScoredDesc (searchResults log idx (tokenize q))).get
          ⟨j, hjf⟩).ID = dS.id := by
        rw [← hgetj]
        exact hjid
      have hjscore : ((sortScoredDesc (searchResults log idx (tokenize q))).get
          ⟨j, hjf⟩).Score = scoreDoc log idx [T] dS :=
        hscore_anyS _ (List.get_mem _ _ _) hjid'
      rcases List.mem_iff_get.mp hmemD with ⟨⟨i, hif⟩, hie⟩
      have hij : i < j := by
        rcases Nat.lt_trichotomy i j with h1 | h2 | h3
        · exact h1
        · exfalso
          subst h2
          have heq : (sortScoredDesc (searchResults log idx (tokenize q))).get ⟨i, hjf⟩ =
              (sortScoredDesc (searchResults log idx (tokenize q))).get ⟨i, hif⟩ := rfl
          have hdid : ((sortScoredDesc (searchResults log idx (tokenize q))).get
              ⟨i, hjf⟩).ID = dD.id := by
            rw [heq, hie]
          rw [hjid'] at hdid
          rw [hidD, hidS] at hdid
          exact hDS hdid.symm
        · exfalso
          have hrel := hpw ⟨j, hjf⟩ ⟨i, hif⟩ h3
          rw [hie, hjscore] at hrel
          simp only at hrel
          linarith
      refine ⟨i, lt_trans hij hj, hij, ?_⟩
      have hgeti : (((sortScoredDesc (searchResults log idx (tokenize q))).take k.toNat).get
          ⟨i, lt_trans hij hj⟩) = (sortScoredDesc (searchResults log idx (tokenize q))).get
          ⟨i, hif⟩ := by
        simp [List.getElem_take]
      rw [hgeti, hie]
    · intro hkk
      have hlenle : (sortScoredDesc (searchResults log idx (tokenize q))).length ≤ k.toNat := by
        have h1 : (sortScoredDesc (searchResults log idx (tokenize q))).length =
            (searchResults log idx (tokenize q)).length :=
          (sortScoredDesc_perm _).length_eq
        have h2 : (searchResults log idx (tokenize q)).length ≤ idx.docs.length :=
          List.length_filterMap_le _ _
        omega
      rw [hout, List.take_of_length_le hlenle]
      exact ⟨⟨_, hmemD, rfl⟩, ⟨_, hmemS, rfl⟩⟩

/-- Concrete instantiation of C7 on the example corpus: "d1" contains "t"
twice, "d2" once, and both documents have two tokens. -/
theorem c7_bm25_tf_monotonic_witness :
    (∀ (j : Nat) (hj : j < (BM25Index.Search linLog exampleIdx "t" 5).length),
      ((BM25Index.Search linLog exampleIdx "t" 5).get ⟨j, hj⟩).ID = "d2" →
      ∃ (i : Nat) (hi : i < (BM25Index.Search linLog exampleIdx "t" 5).length),
        i < j ∧ ((BM25Index.Search linLog exampleIdx "t" 5).get ⟨i, hi⟩).ID = "d1") ∧
    ((exampleIdx.docs.length : Int) ≤ 5 →
      (∃ r ∈ BM25Index.Search linLog exampleIdx "t" 5, r.ID = "d1") ∧
      (∃ r ∈ BM25Index.Search linLog exampleIdx "t" 5, r.ID = "d2")) :=
  c7_bm25_tf_monotonic linLog (fun x hx => by simp only [linLog]; linarith)
    exampleIdx (by decide) (by decide) rfl rfl rfl
    "d1" "d2" "t" "t"
    { id := "d1", tokens := ["t", "t"], tf := [("t", 2)], length := 2 }
    { id := "d2", tokens := ["t", "x"], tf := [("t", 1), ("x", 1)], length := 2 }
    (by decide) (by decide) (by decide) (by decide) (by decide) rfl (by decide)
    (by decide) (by decide) 5

/-! ## Snapshot isolation -/

/-- Writes never touch an open snapshot's captured read transaction. -/
theorem sess_writes_snap (ops : List WriteOp) (sess : Sess) :
    (Sess.writes sess ops).snap = sess.snap := by
  induction ops generalizing sess with
  | nil => rfl
  | cons op rest ih =>
    simp only [Sess.writes, List.foldl_cons]
    exact ih (Sess.write sess op)

/-- C2: taking a snapshot and then performing any sequence of writes
(inserts or deletes of tools or skills) leaves every read through the
snapshot — all tools, tools by source, tools by tag, skills, skills by
category — exactly what it was at the moment the snapshot was taken. -/
theorem c2_snapshot_isolation (s : Store) (ops : List WriteOp) :
    (Sess.writes (Sess.openSnap s) ops).snap.Tools = (Store.Snapshot s).Tools ∧
    (∀ src, (Sess.writes (Sess.openSnap s) ops).snap.ToolsBySource src =
      (Store.Snapshot s).ToolsBySource src) ∧
    (∀ tag, (Sess.writes (Sess.openSnap s) ops).snap.ToolsByTag tag =
      (Store.Snapshot s).ToolsByTag tag) ∧
    (Sess.writes (Sess.openSnap s) ops).snap.Skills = (Store.Snapshot s).Skills ∧
    (∀ cat, (Sess.writes (Sess.openSnap s) ops).snap.SkillsByCategory cat =
      (Store.Snapshot s).SkillsByCategory cat) := by
  have h : (Sess.writes (Sess.openSnap s) ops).snap = Store.Snapshot s :=
    sess_writes_snap ops (Sess.openSnap s)
  rw [h]
  exact ⟨rfl, fun _ => rfl, fun _ => rfl, rfl, fun _ => rfl⟩

/-! ## Skill resolution: registry and loop lemmas -/

theorem Has_register_mono (r : ToolRegistry) (d : ToolDefinition)
    (handler : Option ToolHandler) (source : String) (tags : List String)
    (u : String) (h : r.Has u = true) :
    (r.RegisterWithSource d handler source tags).Has u = true := by
  unfold ToolRegistry.Has Store.GetTool at h
  unfold ToolRegistry.Has ToolRegistry.RegisterWithSource Store.InsertTool
    Store.GetTool
  by_cases hu : u = d.Name
  · subst hu
    simp [alookup_ainsert_self]
  · simpa [alookup_ainsert_ne _ _ _ _ hu] using h

theorem Has_register_self (r : ToolRegistry) (d : ToolDefinition)
    (handler : Option ToolHandler) (source : String) (tags : List String) :
    (r.RegisterWithSource d handler source tags).Has d.Name = true := by
  unfold ToolRegistry.Has ToolRegistry.RegisterWithSource Store.InsertTool
    Store.GetTool
  simp [alookup_ainsert_self]

theorem foldl_register_mono (name : String) (stored : StoredSkill)
    (tools : List ToolDefinition) :
    ∀ (reg : ToolRegistry) (u : String), reg.Has u = true →
    (tools.foldl (fun r d =>
      r.RegisterWithSource d (alookup stored.Handlers d.Name)
        ("skill:" ++ name) stored.Tags) reg).Has u = true := by
  induction tools with
  | nil => intro reg u h; exact h
  | cons d rest ih =>
    intro reg u h
    simp only [List.foldl_cons]
    exact ih _ u (Has_register_mono _ _ _ _ _ _ h)

theorem addSkillTools_mono (reg : ToolRegistry) (name : String)
    (stored : StoredSkill) (u : String) (h : reg.Has u = true) :
    (addSkillTools reg name stored).Has u = true :=
  foldl_register_mono name stored stored.Tools reg u h

theorem addSkillTools_adds (reg : ToolRegistry) (name : String)
    (stored : StoredSkill) :
    ∀ d ∈ stored.Tools, (addSkillTools reg name stored).Has d.Name = true := by
  unfold addSkillTools
  suffices h : ∀ (tools : List ToolDefinition) (reg : ToolRegistry), ∀ d ∈ tools,
      (tools.foldl (fun r d =>
        r.RegisterWithSource d (alookup stored.Handlers d.Name)
          ("skill:" ++ name) stored.Tags) reg).Has d.Name = true by
    exact h stored.Tools reg
  intro tools
  induction tools with
  | nil => intro reg d hd; cases hd
  | cons d₀ rest ih =>
    intro reg d hd
    simp only [List.foldl_cons]
    rcases List.mem_cons.mp hd with rfl | hd'
    · exact foldl_register_mono name stored rest _ d.Name
        (Has_register_self reg d (alookup stored.Handlers d.Name)
          ("skill:" ++ name) stored.Tags)
    · exact ih _ d hd'

theorem foldl_resolveStep_none
    (f : List String → ToolRegistry → String →
      Option (Except String (List String × ToolRegistry)))
    (names : List String) : names.foldl (resolveStep f) none = none := by
  induction names with
  | nil => rfl
  | cons d rest ih => simpa [resolveStep] using ih

theorem foldl_resolveStep_error
    (f : List String → ToolRegistry → String →
      Option (Except String (List String × ToolRegistry)))
    (e : String) (names : List String) :
    names.foldl (resolveStep f) (some (.error e)) = some (.error e) := by
  induction names with
  | nil => rfl
  | cons d rest ih => simpa [resolveStep] using ih

theorem resolveList_cons
    (f : List String → ToolRegistry → String →
      Option (Except String (List String × ToolRegistry)))
    (v : List String) (reg : ToolRegistry) (d : String) (rest : List String) :
    resolveList f v reg (d :: rest) =
      match f v reg d with
      | none => none
      | some (.error e) => some (.error e)
      | some (.ok (v₁, reg₁)) => resolveList f v₁ reg₁ rest := by
  unfold resolveList
  simp only [List.foldl_cons]
  cases hfd : f v reg d with
  | none =>
    simp only [resolveStep, hfd]
    exact foldl_resolveStep_none f rest
  | some r =>
    cases r with
    | error e =>
      simp only [resolveStep, hfd]
      exact foldl_resolveStep_error f e rest
    | ok p =>
      rcases p with ⟨v₁, reg₁⟩
      simp only [resolveStep, hfd]

theorem expandedOk_base (st : Store) (reg : ToolRegistry) (v : List String) :
    ExpandedOk st reg v v := fun _ hx => Or.inl hx

theorem expandedOk_trans (st : Store) (reg₁ reg₂ : ToolRegistry)
    (v v₁ v₂ : List String) (h1 : ExpandedOk st reg₁ v v₁)
    (h2 : ExpandedOk st reg₂ v₁ v₂) (hsub : v₁ ⊆ v₂)
    (hmono : ∀ u, reg₁.Has u = true → reg₂.Has u = true) :
    ExpandedOk st reg₂ v v₂ := by
  intro x hx
  rcases h2 x hx with hx₁ | ⟨sk, hsk, hdeps, htools⟩
  · rcases h1 x hx₁ with hx₀ | ⟨sk, hsk, hdeps, htools⟩
    · exact Or.inl hx₀
    · exact Or.inr ⟨sk, hsk, fun d hd => hsub (hdeps d hd),
        fun d hd => hmono _ (htools d hd)⟩
  · exact Or.inr ⟨sk, hsk, hdeps, htools⟩

theorem reach_mono_roots (st : Store) (roots roots' : List String)
    (h : ∀ r ∈ roots, r ∈ roots') (m : String) (hr : Reach st roots m) :
    Reach st roots' m := by
  induction hr with
  | root n hn => exact Reach.root n (h n hn)
  | dep n d sk _ hsk hd ih => exact Reach.dep n d sk ih hsk hd

theorem reach_of_dep_root (st : Store) (n : String) (sk : StoredSkill)
    (hsk : st.GetSkill n = some sk) (m : String)
    (hr : Reach st sk.Dependencies m) : Reach st [n] m := by
  induction hr with
  | root d hd =>
    exact Reach.dep n d sk (Reach.root n (List.mem_singleton.mpr rfl)) hsk hd
  | dep x d skx _ hskx hd ih => exact Reach.dep x d skx ih hskx hd

/-- What the sequential loop guarantees on success, given the per-name
guarantee of the resolver it runs. -/
theorem resolveList_spec (st : Store)
    (f : List String → ToolRegistry → String →
      Option (Except String (List String × ToolRegistry)))
    (hf : ∀ v reg name v' reg', f v reg name = some (.ok (v', reg')) →
      v ⊆ v' ∧ name ∈ v' ∧
      (∀ u, ToolRegistry.Has reg u = true → ToolRegistry.Has reg' u = true) ∧
      ExpandedOk st reg' v v') :
    ∀ (names : List String) (v : List String) (reg : ToolRegistry)
      (v' : List String) (reg' : ToolRegistry),
      resolveList f v reg names = some (.ok (v', reg')) →
      v ⊆ v' ∧ (∀ d ∈ names, d ∈ v') ∧
      (∀ u, ToolRegistry.Has reg u = true → ToolRegistry.Has reg' u = true) ∧
      ExpandedOk st reg' v v' := by
  intro names
  induction names with
  | nil =>
    intro v reg v' reg' h
    unfold resolveList at h
    simp only [List.foldl_nil, Option.some.injEq, Except.ok.injEq,
      Prod.mk.injEq] at h
    obtain ⟨hv, hreg⟩ := h
    subst hv
    subst hreg
    exact ⟨fun x hx => hx, fun d hd => absurd hd (List.not_mem_nil d),
      fun u hu => hu, expandedOk_base st _ _⟩
  | cons d rest ih =>
    intro v reg v' reg' h
    rw [resolveList_cons] at h
    cases hfd : f v reg d with
    | none => rw [hfd] at h; cases h
    | some r =>
      cases r with
      | error e => rw [hfd] at h; cases h
      | ok p =>
        rcases p with ⟨v₁, reg₁⟩
        rw [hfd] at h
        rcases hf v reg d v₁ reg₁ hfd with ⟨hsub₁, hd₁, hmono₁, hexp₁⟩
        rcases ih v₁ reg₁ v' reg' h with ⟨hsub₂, hmem₂, hmono₂, hexp₂⟩
        refine ⟨fun x hx => hsub₂ (hsub₁ hx), ?_, fun u hu => hmono₂ u (hmono₁ u hu),
          expandedOk_trans st reg₁ reg' v v₁ v' hexp₁ hexp₂ hsub₂ hmono₂⟩
        intro x hx
        rcases List.mem_cons.mp hx with rfl | hx'
        · exact hsub₂ hd₁
        · exact hmem₂ x hx'

/-- What `resolve` guarantees on success: the visited set only grows, the
requested name is visited, registry entries persist, and every newly
visited skill was found, fully expanded, and had its tools registered. -/
theorem resolveGo_spec (st : Store) : ∀ (fuel : Nat) (v : List String)
    (reg : ToolRegistry) (name : String) (v' : List String)
    (reg' : ToolRegistry),
    resolveGo st fuel v reg name = some (.ok (v', reg')) →
    v ⊆ v' ∧ name ∈ v' ∧
    (∀ u, ToolRegistry.Has reg u = true → ToolRegistry.Has reg' u = true) ∧
    ExpandedOk st reg' v v' := by
  intro fuel
  induction fuel with
  | zero =>
    intro v reg name v' reg' h
    cases h
  | succ fuel ih =>
    intro v reg name v' reg' h
    rw [resolveGo_succ] at h
    by_cases hv : name ∈ v
    · rw [if_pos hv] at h
      simp only [Option.some.injEq, Except.ok.injEq, Prod.mk.injEq] at h
      obtain ⟨h1, h2⟩ := h
      subst h1
      subst h2
      exact ⟨fun x hx => hx, hv, fun u hu => hu, expandedOk_base st _ _⟩
    · rw [if_neg hv] at h
      cases hsk : st.GetSkill name with
      | none => rw [hsk] at h; cases h
      | some stored =>
        simp only [hsk] at h
        cases hres : resolveList (resolveGo st fuel) (name :: v) reg
            stored.Dependencies with
        | none => rw [hres] at h; cases h
        | some r =>
          cases r with
          | error e => rw [hres] at h; cases h
          | ok p =>
            rcases p with ⟨v₁, reg₁⟩
            rw [hres] at h
            simp only [Option.some.injEq, Except.ok.injEq, Prod.mk.injEq] at h
            obtain ⟨h1, h2⟩ := h
            subst h1
            rcases resolveList_spec st (resolveGo st fuel) ih
              stored.Dependencies (name :: v) reg v₁ reg₁ hres
              with ⟨hsub₁, hdeps₁, hmono₁, hexp₁⟩
            have hnamev : name ∈ v₁ := hsub₁ (List.mem_cons_self _ _)
            refine ⟨fun x hx => hsub₁ (List.mem_cons_of_mem _ hx), hnamev, ?_, ?_⟩
            · intro u hu
              rw [← h2]
              exact addSkillTools_mono reg₁ name stored u (hmono₁ u hu)
            · intro x hx
              rcases hexp₁ x hx with hx₁ | ⟨sk, hsk', hdeps', htools'⟩
              · rcases List.mem_cons.mp hx₁ with rfl | hx₂
                · refine Or.inr ⟨stored, hsk, hdeps₁, ?_⟩
                  intro d hd
                  rw [← h2]
                  exact addSkillTools_adds reg₁ x stored d hd
                · exact Or.inl hx₂
              · refine Or.inr ⟨sk, hsk', hdeps', ?_⟩
                intro d hd
                rw [← h2]
                exact addSkillTools_mono reg₁ name stored _ (htools' d hd)

/-- Any error out of the sequential loop is a not-found error for a name
reachable from the processed list, given the same guarantee per name. -/
theorem resolveList_err (st : Store)
    (f : List String → ToolRegistry → String →
      Option (Except String (List String × ToolRegistry)))
    (hferr : ∀ v reg name e, f v reg name = some (.error e) →
      ∃ m, e = "skill not found: " ++ m ∧ st.GetSkill m = none ∧
        Reach st [name] m) :
    ∀ (names : List String) (v : List String) (reg : ToolRegistry) (e : String),
      resolveList f v reg names = some (.error e) →
      ∃ m, e = "skill not found: " ++ m ∧ st.GetSkill m = none ∧
        Reach st names m := by
  intro names
  induction names with
  | nil =>
    intro v reg e h
    unfold resolveList at h
    simp at h
  | cons d rest ih =>
    intro v reg e h
    rw [resolveList_cons] at h
    cases hfd : f v reg d with
    | none => rw [hfd] at h; cases h
    | some r =>
      cases r with
      | error e₀ =>
        rw [hfd] at h
        simp only [Option.some.injEq, Except.error.injEq] at h
        subst h
        rcases hferr v reg d e₀ hfd with ⟨m, hm, hmiss, hreach⟩
        refine ⟨m, hm, hmiss, ?_⟩
        refine reach_mono_roots st [d] (d :: rest) ?_ m hreach
        intro r hr
        rw [List.mem_singleton.mp hr]
        exact List.mem_cons_self _ _
      | ok p =>
        rcases p with ⟨v₁, reg₁⟩
        rw [hfd] at h
        rcases ih v₁ reg₁ e h with ⟨m, hm, hmiss, hreach⟩
        exact ⟨m, hm, hmiss,
          reach_mono_roots st rest (d :: rest)
            (fun r hr => List.mem_cons_of_mem _ hr) m hreach⟩

/-- Any error out of `resolve` is a not-found error for a name reachable
from the requested one. -/
theorem resolveGo_err (st : Store) : ∀ (fuel : Nat) (v : List String)
    (reg : ToolRegistry) (name : String) (e : String),
    resolveGo st fuel v reg name = some (.error e) →
    ∃ m, e = "skill not found: " ++ m ∧ st.GetSkill m = none ∧
      Reach st [name] m := by
  intro fuel
  induction fuel with
  | zero =>
    intro v reg name e h
    cases h
  | succ fuel ih =>
    intro v reg name e h
    rw [resolveGo_succ] at h
    by_cases hv : name ∈ v
    · rw [if_pos hv] at h
      cases h
    · rw [if_neg hv] at h
      cases hsk : st.GetSkill name with
      | none =>
        rw [hsk] at h
        simp only [Option.some.injEq, Except.error.injEq] at h
        subst h
        exact ⟨name, rfl, hsk, Reach.root name (List.mem_singleton.mpr rfl)⟩
      | some stored =>
        simp only [hsk] at h
        cases hres : resolveList (resolveGo st fuel) (name :: v) reg
            stored.Dependencies with
        | none => rw [hres] at h; cases h
        | some r =>
          cases r with
          | error e₀ =>
            rw [hres] at h
            simp only [Option.some.injEq, Except.error.injEq] at h
            subst h
            rcases resolveList_err st (resolveGo st fuel) ih
              stored.Dependencies (name :: v) reg e₀ hres
              with ⟨m, hm, hmiss, hreach⟩
            exact ⟨m, hm, hmiss, reach_of_dep_root st name stored hsk m hreach⟩
          | ok p =>
            rcases p with ⟨v₁, reg₁⟩
            rw [hres] at h
            cases h

/-! ## Skill resolution: the fuel bound is never exhausted -/

theorem length_filter_le_of_imp {α : Type} (l : List α) (p q : α → Bool)
    (h : ∀ a, p a = true → q a = true) :
    (l.filter p).length ≤ (l.filter q).length := by
  induction l with
  | nil => exact Nat.le_refl 0
  | cons a t ih =>
    simp only [List.filter_cons]
    by_cases hp : p a = true
    · rw [if_pos hp, if_pos (h a hp)]
      simpa using ih
    · rw [if_neg hp]
      by_cases hq : q a = true
      · rw [if_pos hq]
        exact le_trans ih (by simp)
      · rw [if_neg hq]
        exact ih

theorem unvisited_mono (st : Store) (v v' : List String) (h : v ⊆ v') :
    unvisitedCount st v' ≤ unvisitedCount st v := by
  unfold unvisitedCount
  refine length_filter_le_of_imp _ _ _ ?_
  intro a ha
  simp only [decide_eq_true_eq] at ha ⊢
  intro hav
  exact ha (h hav)

theorem strSorted_nodup (l : List String) (hs : strSorted l = true) :
    l.Nodup := by
  induction l with
  | nil => exact List.nodup_nil
  | cons a t ih =>
    refine List.nodup_cons.mpr ⟨?_, ih (strSorted_cons a t hs)⟩
    intro hmem
    exact absurd rfl (ne_of_strLt (strSorted_head_lt a t hs a hmem))

theorem filter_unvisited_insert (name : String) (v : List String)
    (hv : name ∉ v) :
    ∀ (l : List String), l.Nodup → name ∈ l →
    ((l.filter fun n => decide (¬n ∈ name :: v)).length) + 1 =
      (l.filter fun n => decide (¬n ∈ v)).length := by
  intro l
  induction l with
  | nil => intro _ h; cases h
  | cons b t ih =>
    intro hnd hmem
    rcases List.nodup_cons.mp hnd with ⟨hbt, hndt⟩
    by_cases hb : b = name
    · subst hb
      have hcongr : t.filter (fun n => decide (¬n ∈ b :: v)) =
          t.filter fun n => decide (¬n ∈ v) := by
        refine List.filter_congr ?_
        intro x hx
        have hxb : x ≠ b := fun he => hbt (he ▸ hx)
        simp [List.mem_cons, hxb]
      have h1 : (b :: t).filter (fun n => decide (¬n ∈ b :: v)) =
          t.filter fun n => decide (¬n ∈ v) := by
        rw [List.filter_cons, if_neg (by simp)]
        exact hcongr
      have h2 : (b :: t).filter (fun n => decide (¬n ∈ v)) =
          b :: t.filter fun n => decide (¬n ∈ v) := by
        rw [List.filter_cons, if_pos (by simpa using hv)]
      rw [h1, h2]
      simp
    · have hmem' : name ∈ t := by
        rcases List.mem_cons.mp hmem with h1 | h2
        · exact absurd h1.symm hb
        · exact h2
      simp only [List.filter_cons]
      by_cases hbv : b ∈ v
      · rw [if_neg (by simp [hbv]), if_neg (by simp [hbv])]
        exact ih hndt hmem'
      · have hbnv : ¬b ∈ name :: v := by
          simp [List.mem_cons, hb, hbv]
        rw [if_pos (by simpa using hbnv), if_pos (by simpa using hbv)]
        simp only [List.length_cons]
        have := ih hndt hmem'
        omega

theorem unvisited_insert (st : Store) (name : String) (v : List String)
    (hs : keysSorted st.skills = true)
    (hmem : name ∈ st.skills.map Prod.fst) (hv : name ∉ v) :
    unvisitedCount st (name :: v) + 1 = unvisitedCount st v :=
  filter_unvisited_insert name v hv (st.skills.map Prod.fst)
    (strSorted_nodup _ hs) hmem

theorem getSkill_mem_keys (st : Store) (name : String) (sk : StoredSkill)
    (h : st.GetSkill name = some sk) : name ∈ st.skills.map Prod.fst := by
  unfold Store.GetSkill at h
  exact List.mem_map.mpr ⟨(name, sk), alookup_mem h, rfl⟩

theorem resolveList_total (st : Store) (budget : Nat)
    (f : List String → ToolRegistry → String →
      Option (Except String (List String × ToolRegistry)))
    (hfmono : ∀ v reg name v' reg', f v reg name = some (.ok (v', reg')) → v ⊆ v')
    (hftotal : ∀ v reg name, unvisitedCount st v < budget →
      (f v reg name).isSome = true) :
    ∀ (names : List String) (v : List String) (reg : ToolRegistry),
      unvisitedCount st v < budget →
      (resolveList f v reg names).isSome = true := by
  intro names
  induction names with
  | nil =>
    intro v reg _
    rfl
  | cons d rest ih =>
    intro v reg hb
    rw [resolveList_cons]
    cases hfd : f v reg d with
    | none =>
      have := hftotal v reg d hb
      rw [hfd] at this
      cases this
    | some r =>
      cases r with
      | error e => rfl
      | ok p =>
        rcases p with ⟨v₁, reg₁⟩
        exact ih v₁ reg₁
          (lt_of_le_of_lt (unvisited_mono st v v₁ (hfmono v reg d v₁ reg₁ hfd)) hb)

theorem resolveGo_total (st : Store) (hs : keysSorted st.skills = true) :
    ∀ (fuel : Nat) (v : List String) (reg : ToolRegistry) (name : String),
      unvisitedCount st v < fuel → (resolveGo st fuel v reg name).isSome = true := by
  intro fuel
  induction fuel with
  | zero =>
    intro v reg name h
    exact absurd h (Nat.not_lt_zero _)
  | succ fuel ih =>
    intro v reg name hb
    rw [resolveGo_succ]
    by_cases hv : name ∈ v
    · rw [if_pos hv]; rfl
    · rw [if_neg hv]
      cases hsk : st.GetSkill name with
      | none => rfl
      | some stored =>
        simp only [hsk]
        have hb' : unvisitedCount st (name :: v) < fuel := by
          have := unvisited_insert st name v hs
            (getSkill_mem_keys st name stored hsk) hv
          omega
        have hsome := resolveList_total st fuel (resolveGo st fuel)
          (fun v reg name v' reg' h =>
            (resolveGo_spec st fuel v reg name v' reg' h).1)
          (fun v reg name h => ih v reg name h)
          stored.Dependencies (name :: v) reg hb'
        cases hres : resolveList (resolveGo st fuel) (name :: v) reg
            stored.Dependencies with
        | none =>
          rw [hres] at hsome
          cases hsome
        | some r =>
          cases r with
          | error e => rfl
          | ok p => rcases p with ⟨v₁, reg₁⟩; rfl

theorem unvisited_nil (st : Store) :
    unvisitedCount st [] = st.skills.length := by
  unfold unvisitedCount
  rw [List.filter_eq_self.mpr (by intro a _; simp)]
  simp

/-- The wrapper's fuel bound always suffices: `Resolve` never returns the
fuel-exhaustion marker. -/
theorem Resolve_isSome (sr : SkillRegistry)
    (hs : keysSorted sr.store.skills = true) (names : List String) :
    (sr.Resolve names).isSome = true := by
  unfold SkillRegistry.Resolve
  have hsome := resolveList_total sr.store (sr.store.skills.length + 1)
    (resolveGo sr.store (sr.store.skills.length + 1))
    (fun v reg name v' reg' h =>
      (resolveGo_spec sr.store _ v reg name v' reg' h).1)
    (fun v reg name h => resolveGo_total sr.store hs _ v reg name h)
    names [] (NewToolRegistryWithStore NewStore)
    (by rw [unvisited_nil]; omega)
  cases hres : resolveList (resolveGo sr.store (sr.store.skills.length + 1)) []
      (NewToolRegistryWithStore NewStore) names with
  | none =>
    rw [hres] at hsome
    cases hsome
  | some r =>
    cases r with
    | error e => rfl
    | ok p => rcases p with ⟨v₁, reg₁⟩; rfl

/-! ## Claims about Resolve -/

/-- C4: if any requested name, or any name reachable from one through
dependency lists, is absent from the store, the whole Resolve call fails
with a "skill not found" error (and hence returns no capability set). -/
theorem c4_resolve_missing_fails (sr : SkillRegistry)
    (hs : keysSorted sr.store.skills = true) (names : List String)
    (n : String) (hreach : Reach sr.store names n)
    (hmissing : sr.store.GetSkill n = none) :
    ∃ m, sr.Resolve names = some (.error ("skill not found: " ++ m)) ∧
      sr.store.GetSkill m = none := by
  have hsome := Resolve_isSome sr hs names
  unfold SkillRegistry.Resolve at hsome ⊢
  cases hres : resolveList (resolveGo sr.store (sr.store.skills.length + 1)) []
      (NewToolRegistryWithStore NewStore) names with
  | none =>
    rw [hres] at hsome
    cases hsome
  | some r =>
    cases r with
    | error e =>
      rcases resolveList_err sr.store _
        (fun v reg nm e' h => resolveGo_err sr.store _ v reg nm e' h)
        names [] (NewToolRegistryWithStore NewStore) e hres
        with ⟨m, hm, hmiss, _⟩
      exact ⟨m, by rw [hm], hmiss⟩
    | ok p =>
      exfalso
      rcases p with ⟨v', reg'⟩
      rcases resolveList_spec sr.store _
        (fun v reg nm v₀ reg₀ h => resolveGo_spec sr.store _ v reg nm v₀ reg₀ h)
        names [] (NewToolRegistryWithStore NewStore) v' reg' hres
        with ⟨_, hroots, _, hexp⟩
      have hall : ∀ x, Reach sr.store names x →
          x ∈ v' ∧ ∃ sk, sr.store.GetSkill x = some sk := by
        intro x hx
        induction hx with
        | root a ha =>
          have hav : a ∈ v' := hroots a ha
          rcases hexp a hav with h1 | ⟨sk, hsk, _, _⟩
          · cases h1
          · exact ⟨hav, sk, hsk⟩
        | dep a d sk _ hsk hd ih =>
          rcases ih with ⟨hav, sk', hsk'⟩
          rcases hexp a hav with h1 | ⟨sk'', hsk'', hdeps, _⟩
          · cases h1
          · have hse : sk'' = sk := by
              rw [hsk] at hsk''
              exact (Option.some.inj hsk'').symm
            subst hse
            have hdv : d ∈ v' := hdeps d hd
            rcases hexp d hdv with h2 | ⟨skd, hskd, _, _⟩
            · cases h2
            · exact ⟨hdv, skd, hskd⟩
      rcases hall n hreach with ⟨_, sk, hsk⟩
      rw [hmissing] at hsk
      cases hsk

/-- Concrete instantiation of C4: "a" depends on the unregistered "d". -/
theorem c4_resolve_missing_fails_witness :
    ∃ m, (NewSkillRegistry exStoreBroken).Resolve ["a"] =
      some (.error ("skill not found: " ++ m)) ∧
      (NewSkillRegistry exStoreBroken).store.GetSkill m = none :=
  c4_resolve_missing_fails (NewSkillRegistry exStoreBroken) (by decide)
    ["a"] "d"
    (Reach.dep "a" "d" exSkillABroken
      (Reach.root "a" (List.mem_singleton.mpr rfl)) (by decide) (by decide))
    (by decide)

/-- C3 as frozen is falsified by the code: "a" depends on "b" (and "b" on
"c", all three registered), yet the extra unregistered dependency "d" of
"a" makes `Resolve("a")` fail instead of succeeding. -/
theorem c3_counterexample :
    "b" ∈ exSkillABroken.Dependencies ∧ "c" ∈ exSkillB.Dependencies ∧
    exStoreBroken.GetSkill "a" = some exSkillABroken ∧
    exStoreBroken.GetSkill "b" = some exSkillB ∧
    exStoreBroken.GetSkill "c" = some exSkillC ∧
    (NewSkillRegistry exStoreBroken).Resolve ["a"] =
      some (.error "skill not found: d") :=
  ⟨by decide, by decide, by decide, by decide, by decide, by decide⟩

/-- C3 (amended): if additionally every bundle name transitively reachable
from A is registered, `Resolve(A)` succeeds and the returned registry
contains every capability owned by A, by B and by C. -/
theorem c3_transitive_resolve (sr : SkillRegistry)
    (hs : keysSorted sr.store.skills = true)
    (A B C : String) (skA skB skC : StoredSkill)
    (hA : sr.store.GetSkill A = some skA)
    (hB : sr.store.GetSkill B = some skB)
    (hC : sr.store.GetSkill C = some skC)
    (hAB : B ∈ skA.Dependencies) (hBC : C ∈ skB.Dependencies)
    (hclosed : ∀ n, Reach sr.store [A] n →
      (sr.store.GetSkill n).isSome = true) :
    ∃ reg, sr.Resolve [A] = some (.ok reg) ∧
      ∀ d ∈ skA.Tools ++ skB.Tools ++ skC.Tools,
        reg.Has d.Name = true := by
  have hsome := Resolve_isSome sr hs [A]
  unfold SkillRegistry.Resolve at hsome ⊢
  cases hres : resolveList (resolveGo sr.store (sr.store.skills.length + 1)) []
      (NewToolRegistryWithStore NewStore) [A] with
  | none =>
    rw [hres] at hsome
    cases hsome
  | some r =>
    cases r with
    | error e =>
      exfalso
      rcases resolveList_err sr.store _
        (fun v reg nm e' h => resolveGo_err sr.store _ v reg nm e' h)
        [A] [] (NewToolRegistryWithStore NewStore) e hres
        with ⟨m, _, hmiss, hreach⟩
      have := hclosed m hreach
      rw [hmiss] at this
      cases this
    | ok p =>
      rcases p with ⟨v', reg'⟩
      refine ⟨reg', rfl, ?_⟩
      rcases resolveList_spec sr.store _
        (fun v reg nm v₀ reg₀ h => resolveGo_spec sr.store _ v reg nm v₀ reg₀ h)
        [A] [] (NewToolRegistryWithStore NewStore) v' reg' hres
        with ⟨_, hroots, _, hexp⟩
      have hAv : A ∈ v' := hroots A (List.mem_singleton.mpr rfl)
      rcases hexp A hAv with h1 | ⟨skA', hskA', hdepsA, htoolsA⟩
      · cases h1
      · have hsa : skA' = skA := by
          rw [hA] at hskA'
          exact (Option.some.inj hskA').symm
        subst hsa
        have hBv : B ∈ v' := hdepsA B hAB
        rcases hexp B hBv with h2 | ⟨skB', hskB', hdepsB, htoolsB⟩
        · cases h2
        · have hsb : skB' = skB := by
            rw [hB] at hskB'
            exact (Option.some.inj hskB').symm
          subst hsb
          have hCv : C ∈ v' := hdepsB C hBC
          rcases hexp C hCv with h3 | ⟨skC', hskC', _, htoolsC⟩
          · cases h3
          · have hsc : skC' = skC := by
              rw [hC] at hskC'
              exact (Option.some.inj hskC').symm
            subst hsc
            intro d hd
            rcases List.mem_append.mp hd with hd12 | hd3
            · rcases List.mem_append.mp hd12 with hd1 | hd2
              · exact htoolsA d hd1
              · exact htoolsB d hd2
            · exact htoolsC d hd3

/-- Concrete instantiation of the amended C3 on the diamond store. -/
theorem c3_transitive_resolve_witness :
    ∃ reg, (NewSkillRegistry exStore).Resolve ["a"] = some (.ok reg) ∧
      ∀ d ∈ exSkillA.Tools ++ exSkillB.Tools ++ exSkillC.Tools,
        reg.Has d.Name = true :=
  c3_transitive_resolve (NewSkillRegistry exStore) (by decide)
    "a" "b" "c" exSkillA exSkillB exSkillC
    (by decide) (by decide) (by decide) (by decide) (by decide)
    (by
      intro n hn
      have hcl : n = "a" ∨ n = "b" ∨ n = "c" := by
        induction hn with
        | root m hm =>
          left
          simpa using hm
        | dep x d skx _ hskx hd ih =>
          rcases ih with rfl | rfl | rfl
          · have hx : skx = exSkillA := by
              have h0 : (NewSkillRegistry exStore).store.GetSkill "a" =
                  some exSkillA := by decide
              rw [h0] at hskx
              exact (Option.some.inj hskx).symm
            subst hx
            have : d = "b" ∨ d = "c" := by
              simpa [exSkillA] using hd
            rcases this with rfl | rfl
            · right; left; rfl
            · right; right; rfl
          · have hx : skx = exSkillB := by
              have h0 : (NewSkillRegistry exStore).store.GetSkill "b" =
                  some exSkillB := by decide
              rw [h0] at hskx
              exact (Option.some.inj hskx).symm
            subst hx
            have : d = "c" := by
              simpa [exSkillB] using hd
            subst this
            right; right; rfl
          · have hx : skx = exSkillC := by
              have h0 : (NewSkillRegistry exStore).store.GetSkill "c" =
                  some exSkillC := by decide
              rw [h0] at hskx
              exact (Option.some.inj hskx).symm
            subst hx
            simp [exSkillC] at hd
      rcases hcl with rfl | rfl | rfl <;> decide)

/-- C5: `Resolve` terminates on every dependency graph — the fueled
embedding never exhausts its bound, so each bundle is expanded at most
once — and on a registered two-cycle A → B → A the call returns a
well-defined non-erroring registry containing both bundles' capabilities. -/
theorem c5_resolve_cycle_terminates :
    (∀ (sr : SkillRegistry), keysSorted sr.store.skills = true →
      ∀ names, (sr.Resolve names).isSome = true) ∧
    (∀ (sr : SkillRegistry), keysSorted sr.store.skills = true →
      ∀ (A B : String) (skA skB : StoredSkill),
      sr.store.GetSkill A = some skA → sr.store.GetSkill B = some skB →
      skA.Dependencies = [B] → skB.Dependencies = [A] →
      ∃ reg, sr.Resolve [A] = some (.ok reg) ∧
        (∀ d ∈ skA.Tools, reg.Has d.Name = true) ∧
        (∀ d ∈ skB.Tools, reg.Has d.Name = true)) := by
  constructor
  · intro sr hs names
    exact Resolve_isSome sr hs names
  · intro sr hs A B skA skB hA hB hdA hdB
    have hsome := Resolve_isSome sr hs [A]
    unfold SkillRegistry.Resolve at hsome ⊢
    cases hres : resolveList (resolveGo sr.store (sr.store.skills.length + 1)) []
        (NewToolRegistryWithStore NewStore) [A] with
    | none =>
      rw [hres] at hsome
      cases hsome
    | some r =>
      cases r with
      | error e =>
        exfalso
        rcases resolveList_err sr.store _
          (fun v reg nm e' h => resolveGo_err sr.store _ v reg nm e' h)
          [A] [] (NewToolRegistryWithStore NewStore) e hres
          with ⟨m, _, hmiss, hreach⟩
        have hcl : ∀ x, Reach sr.store [A] x → x = A ∨ x = B := by
          intro x hx
          induction hx with
          | root y hy =>
            left
            simpa using hy
          | dep y d sky _ hsky hd ih =>
            rcases ih with rfl | rfl
            · have hy : sky = skA := by
                rw [hA] at hsky
                exact (Option.some.inj hsky).symm
              subst hy
              rw [hdA] at hd
              right
              simpa using hd
            · have hy : sky = skB := by
                rw [hB] at hsky
                exact (Option.some.inj hsky).symm
              subst hy
              rw [hdB] at hd
              left
              simpa using hd
        rcases hcl m hreach with rfl | rfl
        · rw [hmiss] at hA; cases hA
        · rw [hmiss] at hB; cases hB
      | ok p =>
        rcases p with ⟨v', reg'⟩
        refine ⟨reg', rfl, ?_⟩
        rcases resolveList_spec sr.store _
          (fun v reg nm v₀ reg₀ h => resolveGo_spec sr.store _ v reg nm v₀ reg₀ h)
          [A] [] (NewToolRegistryWithStore NewStore) v' reg' hres
          with ⟨_, hroots, _, hexp⟩
        have hAv : A ∈ v' := hroots A (List.mem_singleton.mpr rfl)
        rcases hexp A hAv with h1 | ⟨skA', hskA', hdepsA, htoolsA⟩
        · cases h1
        · have hsa : skA' = skA := by
            rw [hA] at hskA'
            exact (Option.some.inj hskA').symm
          subst hsa
          have hBv : B ∈ v' := hdepsA B (by rw [hdA]; exact List.mem_singleton.mpr rfl)
          rcases hexp B hBv with h2 | ⟨skB', hskB', _, htoolsB⟩
          · cases h2
          · have hsb : skB' = skB := by
              rw [hB] at hskB'
              exact (Option.some.inj hskB').symm
            subst hsb
            exact ⟨htoolsA, htoolsB⟩

/-- Concrete instantiation of C5 on the two-cycle store. -/
theorem c5_resolve_cycle_terminates_witness :
    ((NewSkillRegistry exStoreCyc).Resolve ["a", "b"]).isSome = true ∧
    ∃ reg, (NewSkillRegistry exStoreCyc).Resolve ["a"] = some (.ok reg) ∧
      (∀ d ∈ exSkillCycA.Tools, reg.Has d.Name = true) ∧
      (∀ d ∈ exSkillCycB.Tools, reg.Has d.Name = true) :=
  ⟨c5_resolve_cycle_terminates.1 (NewSkillRegistry exStoreCyc) (by decide)
      ["a", "b"],
    c5_resolve_cycle_terminates.2 (NewSkillRegistry exStoreCyc) (by decide)
      "a" "b" exSkillCycA exSkillCycB (by decide) (by decide) (by decide)
      (by decide)⟩

/-! ## Claim C9: SelectTools fails open -/

/-- C9: over a store with a non-empty tool catalog, if no relevance index
is configured or the query is empty, SelectTools returns the entire tool
catalog, with every registered capability appearing exactly once. -/
theorem c9_select_tools_fail_open (cb : ContextBuilder) (q : String)
    (hidx : cb.index = none ∨ q = "")
    (hs : keysSorted cb.store.tools = true)
    (hcoh : ∀ p ∈ cb.store.tools, p.2.ToolDefinition.Name = p.1)
    (hne : cb.store.tools ≠ []) :
    cb.SelectTools q = (cb.store.ListTools).map (fun t => t.ToolDefinition) ∧
    cb.SelectTools q ≠ [] ∧
    ∀ st ∈ cb.store.ListTools,
      (cb.SelectTools q).count st.ToolDefinition = 1 := by
  have heq : cb.SelectTools q =
      (cb.store.ListTools).map (fun t => t.ToolDefinition) := by
    rcases hidx with h | h
    · unfold ContextBuilder.SelectTools
      rw [h]
    · unfold ContextBuilder.SelectTools
      cases hix : cb.index with
      | none => rfl
      | some f =>
        subst h
        exact if_pos rfl
  have hnames : ((cb.store.ListTools).map
        (fun t => t.ToolDefinition)).map ToolDefinition.Name =
      cb.store.tools.map Prod.fst := by
    simp only [Store.ListTools, List.map_map]
    exact List.map_congr_left hcoh
  have hnodupN : (((cb.store.ListTools).map
      (fun t => t.ToolDefinition)).map ToolDefinition.Name).Nodup := by
    rw [hnames]
    exact strSorted_nodup _ hs
  have hnodup : ((cb.store.ListTools).map
      (fun t => t.ToolDefinition)).Nodup :=
    List.Nodup.of_map _ hnodupN
  refine ⟨heq, ?_, ?_⟩
  · rw [heq]
    intro hc
    simp only [Store.ListTools, List.map_map, List.map_eq_nil_iff] at hc
    exact hne hc
  · intro st hst
    rw [heq]
    exact List.count_eq_one_of_mem hnodup (List.mem_map.mpr ⟨st, hst, rfl⟩)

/-- Concrete instantiation of C9: no index, two registered tools. -/
theorem c9_select_tools_fail_open_witness :
    exCbNoIdx.SelectTools "q" =
      (exCbNoIdx.store.ListTools).map (fun t => t.ToolDefinition) ∧
    exCbNoIdx.SelectTools "q" ≠ [] ∧
    ∀ st ∈ exCbNoIdx.store.ListTools,
      (exCbNoIdx.SelectTools "q").count st.ToolDefinition = 1 :=
  c9_select_tools_fail_open exCbNoIdx "q" (Or.inl rfl) (by decide)
    (by decide) (by decide)

/-! ## Claim C1: score bookkeeping of the dependency expansion -/

theorem resolveSkillTools_succ (cb : ContextBuilder) (fuel : Nat)
    (skillID : String) (bs df : ℚ) (acc : ToolAcc) :
    resolveSkillTools cb (fuel + 1) skillID bs df acc =
    if skillID ∈ acc.visited then acc
    else
      let acc₁ := { acc with visited := skillID :: acc.visited }
      match cb.store.GetSkill skillID with
      | none => acc₁
      | some skill =>
        let score := bs * df
        let acc₂ := addToolDefs score skill.Tools acc₁
        skill.Dependencies.foldl (fun a dep =>
          resolveSkillTools cb fuel dep bs (df * (1 / 2)) a) acc₂ := rfl

theorem stepScores (score : ℚ) (f : String → ℚ) (dn n : String) :
    (if f dn < score then updateScore f dn score else f) n = f n ∨
    (if f dn < score then updateScore f dn score else f) n = score := by
  by_cases hc : f dn < score
  · rw [if_pos hc]
    unfold updateScore
    by_cases hn : n = dn
    · right
      rw [if_pos hn]
    · left
      rw [if_neg hn]
  · left
    rw [if_neg hc]

theorem stepMono (score : ℚ) (f : String → ℚ) (dn n : String) :
    f n ≤ (if f dn < score then updateScore f dn score else f) n := by
  by_cases hc : f dn < score
  · rw [if_pos hc]
    unfold updateScore
    by_cases hn : n = dn
    · rw [if_pos hn]
      subst hn
      exact le_of_lt hc
    · rw [if_neg hn]
  · rw [if_neg hc]

theorem stepAtLeast (score : ℚ) (f : String → ℚ) (dn : String) :
    score ≤ (if f dn < score then updateScore f dn score else f) dn := by
  by_cases hc : f dn < score
  · rw [if_pos hc]
    unfold updateScore
    rw [if_pos rfl]
  · rw [if_neg hc]
    exact le_of_not_lt hc

theorem addToolDefs_cons (score : ℚ) (d : ToolDefinition)
    (rest : List ToolDefinition) (acc : ToolAcc) :
    addToolDefs score (d :: rest) acc =
    addToolDefs score rest { acc with
      toolSet := ainsert d.Name d acc.toolSet
      toolScores :=
        if acc.toolScores d.Name < score then
          updateScore acc.toolScores d.Name score
        else acc.toolScores } := rfl

theorem addToolDefs_scores (score : ℚ) (tools : List ToolDefinition) :
    ∀ (acc : ToolAcc) (n : String),
      (addToolDefs score tools acc).toolScores n = acc.toolScores n ∨
      (addToolDefs score tools acc).toolScores n = score := by
  induction tools with
  | nil =>
    intro acc n
    left
    rfl
  | cons d rest ih =>
    intro acc n
    rw [addToolDefs_cons]
    rcases ih _ n with h | h
    · rw [h]
      exact stepScores score acc.toolScores d.Name n
    · right
      exact h

theorem addToolDefs_mono (score : ℚ) (tools : List ToolDefinition) :
    ∀ (acc : ToolAcc) (n : String),
      acc.toolScores n ≤ (addToolDefs score tools acc).toolScores n := by
  induction tools with
  | nil =>
    intro acc n
    exact le_refl _
  | cons d rest ih =>
    intro acc n
    rw [addToolDefs_cons]
    exact le_trans (stepMono score acc.toolScores d.Name n) (ih _ n)

theorem addToolDefs_adds (score : ℚ) (tools : List ToolDefinition) :
    ∀ (acc : ToolAcc) (d : ToolDefinition), d ∈ tools →
      score ≤ (addToolDefs score tools acc).toolScores d.Name := by
  induction tools with
  | nil =>
    intro acc d hd
    cases hd
  | cons t rest ih =>
    intro acc d hd
    rw [addToolDefs_cons]
    rcases List.mem_cons.mp hd with rfl | hmem
    · exact le_trans (stepAtLeast score acc.toolScores d.Name)
        (addToolDefs_mono score rest _ d.Name)
    · exact ih _ d hmem

theorem foldl_rst_mono (cb : ContextBuilder) (fuel : Nat) (bs df : ℚ)
    (hmono : ∀ s (a : ToolAcc) m,
      a.toolScores m ≤ (resolveSkillTools cb fuel s bs df a).toolScores m)
    (deps : List String) : ∀ (a : ToolAcc) (n : String),
      a.toolScores n ≤ ((deps.foldl (fun a dep =>
        resolveSkillTools cb fuel dep bs df a) a)).toolScores n := by
  induction deps with
  | nil =>
    intro a n
    exact le_refl _
  | cons d rest ih =>
    intro a n
    simp only [List.foldl_cons]
    exact le_trans (hmono d a n) (ih _ n)

theorem rst_mono (cb : ContextBuilder) : ∀ (fuel : Nat) (skillID : String)
    (bs df : ℚ) (acc : ToolAcc) (n : String),
    acc.toolScores n ≤
      (resolveSkillTools cb fuel skillID bs df acc).toolScores n := by
  intro fuel
  induction fuel with
  | zero =>
    intro skillID bs df acc n
    exact le_refl _
  | succ fuel ih =>
    intro skillID bs df acc n
    rw [resolveSkillTools_succ]
    by_cases hv : skillID ∈ acc.visited
    · rw [if_pos hv]
    · rw [if_neg hv]
      cases hsk : cb.store.GetSkill skillID with
      | none =>
        simp only [hsk]
        exact le_refl _
      | some sk =>
        simp only [hsk]
        refine le_trans (addToolDefs_mono (bs * df) sk.Tools
          { acc with visited := skillID :: acc.visited } n) ?_
        exact foldl_rst_mono cb fuel bs (df * (1 / 2))
          (fun s a m => ih s bs (df * (1 / 2)) a m) sk.Dependencies _ n

theorem foldl_rst_shape (cb : ContextBuilder) (fuel : Nat) (bs df : ℚ)
    (hshape : ∀ s (a : ToolAcc) m,
      (resolveSkillTools cb fuel s bs df a).toolScores m = a.toolScores m ∨
      ∃ k : Nat, (resolveSkillTools cb fuel s bs df a).toolScores m =
        bs * df * (1 / 2) ^ k)
    (deps : List String) : ∀ (a : ToolAcc) (n : String),
      ((deps.foldl (fun a dep =>
        resolveSkillTools cb fuel dep bs df a) a)).toolScores n =
        a.toolScores n ∨
      ∃ k : Nat, ((deps.foldl (fun a dep =>
        resolveSkillTools cb fuel dep bs df a) a)).toolScores n =
        bs * df * (1 / 2) ^ k := by
  induction deps with
  | nil =>
    intro a n
    left
    rfl
  | cons d rest ih =>
    intro a n
    simp only [List.foldl_cons]
    rcases ih (resolveSkillTools cb fuel d bs df a) n with h | h
    · rcases hshape d a n with h2 | h2
      · left
        exact h.trans h2
      · right
        rcases h2 with ⟨k, hk⟩
        exact ⟨k, h.trans hk⟩
    · right
      exact h

theorem rst_shape (cb : ContextBuilder) : ∀ (fuel : Nat) (skillID : String)
    (bs df : ℚ) (acc : ToolAcc) (n : String),
    (resolveSkillTools cb fuel skillID bs df acc).toolScores n =
      acc.toolScores n ∨
    ∃ k : Nat, (resolveSkillTools cb fuel skillID bs df acc).toolScores n =
      bs * df * (1 / 2) ^ k := by
  intro fuel
  induction fuel with
  | zero =>
    intro skillID bs df acc n
    left
    rfl
  | succ fuel ih =>
    intro skillID bs df acc n
    rw [resolveSkillTools_succ]
    by_cases hv : skillID ∈ acc.visited
    · rw [if_pos hv]
      left
      rfl
    · rw [if_neg hv]
      cases hsk : cb.store.GetSkill skillID with
      | none =>
        simp only [hsk]
        exact Or.inl trivial
      | some sk =>
        simp only [hsk]
        rcases foldl_rst_shape cb fuel bs (df * (1 / 2))
            (fun s a m => ih s bs (df * (1 / 2)) a m) sk.Dependencies
            (addToolDefs (bs * df) sk.Tools
              { acc with visited := skillID :: acc.visited }) n with h | ⟨k, hk⟩
        · rcases addToolDefs_scores (bs * df) sk.Tools
              { acc with visited := skillID :: acc.visited } n with h2 | h2
          · left
            exact h.trans h2
          · right
            refine ⟨0, (h.trans h2).trans ?_⟩
            ring
        · right
          refine ⟨k + 1, hk.trans ?_⟩
          ring

theorem rst_adds (cb : ContextBuilder) (fuel : Nat) (skillID : String)
    (bs df : ℚ) (acc : ToolAcc) (sk : StoredSkill)
    (hsk : cb.store.GetSkill skillID = some sk)
    (hv : skillID ∉ acc.visited) :
    ∀ d ∈ sk.Tools, bs * df ≤
      (resolveSkillTools cb (fuel + 1) skillID bs df acc).toolScores d.Name := by
  intro d hd
  rw [resolveSkillTools_succ, if_neg hv]
  simp only [hsk]
  refine le_trans (addToolDefs_adds (bs * df) sk.Tools
    { acc with visited := skillID :: acc.visited } d hd) ?_
  exact foldl_rst_mono cb fuel bs (df * (1 / 2))
    (fun s a m => rst_mono cb fuel s bs (df * (1 / 2)) a m) sk.Dependencies _
    d.Name

/-- C1 as frozen is falsified by the code: in the diamond a → {b, c},
b → c, with candidate "a" scored 1, tool "t" (owned by "c") is reachable
at graph-distance 1 along a → c, so the claimed max-over-paths score is
1·(1/2)¹ = 1/2; but the DFS visits "c" first through "b" at depth 2 and
the visited set suppresses the shorter path, recording 1/4. -/
theorem c1_counterexample :
    "c" ∈ exSkillA.Dependencies ∧
    exStore.GetSkill "a" = some exSkillA ∧
    exStore.GetSkill "c" = some exSkillC ∧
    exSkillC.Tools = [exTool] ∧ exTool.Name = "t" ∧
    (selectToolsExpand exCb [{ ID := "a", Score := 1 }]).toolScores "t" =
      1 / 4 ∧
    (1 / 4 : ℚ) ≠ 1 * (1 / 2) ^ 1 := by
  refine ⟨by decide, by decide, by decide, by decide, by decide, ?_, by norm_num⟩
  simp only [selectToolsExpand, exCb, exStore, List.length_cons,
    List.length_nil, List.foldl_cons, List.foldl_nil]
  simp [resolveSkillTools, addToolDefs, updateScore, Store.GetSkill, alookup,
    ainsert, exSkillA, exSkillB, exSkillC, exTool]
  norm_num

/-- C1 (amended): the dependency expansion never sums scores and never
lowers one: expanding a bundle raises the score map only pointwise
upward; every score it writes is exactly baseScore·depthFactor·(1/2)^k
for the DFS depth k at which the tool's owner was first expanded (the
first-visit path, not the maximum over all paths); and a bundle's own
tools always end with score at least baseScore·depthFactor. -/
theorem c1_score_decay (cb : ContextBuilder) (fuel : Nat) (skillID : String)
    (bs df : ℚ) (acc : ToolAcc) (sk : StoredSkill) :
    (∀ n, acc.toolScores n ≤
      (resolveSkillTools cb fuel skillID bs df acc).toolScores n) ∧
    (∀ n, (resolveSkillTools cb fuel skillID bs df acc).toolScores n =
        acc.toolScores n ∨
      ∃ k : Nat, (resolveSkillTools cb fuel skillID bs df acc).toolScores n =
        bs * df * (1 / 2) ^ k) ∧
    (cb.store.GetSkill skillID = some sk → skillID ∉ acc.visited →
      ∀ d ∈ sk.Tools, bs * df ≤
        (resolveSkillTools cb (fuel + 1) skillID bs df acc).toolScores
          d.Name) :=
  ⟨fun n => rst_mono cb fuel skillID bs df acc n,
   fun n => rst_shape cb fuel skillID bs df acc n,
   fun hsk hv d hd => rst_adds cb fuel skillID bs df acc sk hsk hv d hd⟩

/-- Concrete instantiation of the amended C1: the candidate "c" scored 1
ends with its own tool "t" scored at least 1·1. -/
theorem c1_score_decay_witness :
    (1 : ℚ) * 1 ≤
      (resolveSkillTools exCb 4 "c" 1 1 emptyToolAcc).toolScores
        exTool.Name :=
  (c1_score_decay exCb 3 "c" 1 1 emptyToolAcc exSkillC).2.2 (by decide)
    (by decide) exTool (by decide)

end AgentCore
